import Mathlib

/-!
# Verification of the vtzero encoder core (`builder_impl.hpp`)

A shallow embedding of the vector-tile builder internals: the protobuf
field encoding used by `protozero::pbf_builder`, the interning
`string_table`, the `layer_builder_impl` with its typed value tables,
the `layer_builder_existing` pass-through, and (modelled from the spec,
because the corresponding headers are not part of the sources at hand)
the tile serializer, the tile decoder and the per-feature state machine.

Bytes are modelled as `List Nat` (each element a byte value below 256);
machine integers are `Nat` with explicit wrap-around where it matters.
An `index_value` is modelled as `Option Nat`: `none` is the out-of-band
invalid sentinel, `some i` a valid 32-bit index.
-/

namespace Vtzero

/-! ## Protobuf varint encoding (protozero wire layer) -/

/-- LEB128 varint encoding, structural in a fuel argument so that it
evaluates by kernel reduction; `fuel` bounds the number of 7-bit groups
(any `fuel` with `n < 128 ^ (fuel + 1)` gives the exact encoding). -/
def varintEncodeAux : Nat → Nat → List Nat
  | 0, n => [n % 128]
  | fuel + 1, n =>
      if n < 128 then [n]
      else (n % 128 + 128) :: varintEncodeAux fuel (n / 128)

/-- LEB128 varint encoding of a natural number, least significant group
first, continuation bit 128 on every byte except the last. -/
def varintEncode (n : Nat) : List Nat :=
  varintEncodeAux n n

/-- Varint parser: returns the decoded value and the remaining bytes. -/
def parseVarint : List Nat → Option (Nat × List Nat)
  | [] => none
  | b :: rest =>
      if b < 128 then some (b, rest)
      else match parseVarint rest with
        | none => none
        | some (v, r) => some (v * 128 + (b - 128), r)

theorem parseVarint_varintEncodeAux (fuel n : Nat) (hn : n < 128 ^ (fuel + 1))
    (rest : List Nat) :
    parseVarint (varintEncodeAux fuel n ++ rest) = some (n, rest) := by
  induction fuel generalizing n with
  | zero =>
    have h : n < 128 := by simpa using hn
    have hm : n % 128 = n := Nat.mod_eq_of_lt h
    simp [varintEncodeAux, parseVarint, hm, h]
  | succ fuel ih =>
    by_cases h : n < 128
    · simp [varintEncodeAux, h, parseVarint]
    · have hd : n / 128 < 128 ^ (fuel + 1) := by
        rw [Nat.div_lt_iff_lt_mul (by omega)]
        calc n < 128 ^ (fuel + 1 + 1) := hn
        _ = 128 ^ (fuel + 1) * 128 := by ring
      simp only [varintEncodeAux, h, if_false, List.cons_append, parseVarint]
      have hge : ¬ (n % 128 + 128 < 128) := by omega
      simp only [hge, if_false, ih (n / 128) hd]
      have harith : n / 128 * 128 + (n % 128 + 128 - 128) = n := by omega
      rw [harith]

theorem parseVarint_varintEncode (n : Nat) (rest : List Nat) :
    parseVarint (varintEncode n ++ rest) = some (n, rest) := by
  have hn : n < 128 ^ (n + 1) := by
    calc n < 2 ^ n := Nat.lt_two_pow n
    _ ≤ 128 ^ n := Nat.pow_le_pow_left (by omega) n
    _ ≤ 128 ^ (n + 1) := Nat.pow_le_pow_right (by omega) (by omega)
  exact parseVarint_varintEncodeAux n n hn rest

theorem parseVarint_length {data rest : List Nat} {v : Nat}
    (h : parseVarint data = some (v, rest)) : rest.length < data.length := by
  induction data generalizing v rest with
  | nil => simp [parseVarint] at h
  | cons b bs ih =>
    simp only [parseVarint] at h
    by_cases hb : b < 128
    · simp only [hb, if_true, Option.some.injEq, Prod.mk.injEq] at h
      obtain ⟨h1, h2⟩ := h
      subst h2
      simp
    · simp only [hb, if_false] at h
      cases hr : parseVarint bs with
      | none => rw [hr] at h; simp at h
      | some p =>
        obtain ⟨v', r'⟩ := p
        rw [hr] at h
        simp only [Option.some.injEq, Prod.mk.injEq] at h
        obtain ⟨h1, h2⟩ := h
        subst h2
        have := ih hr
        simp only [List.length_cons]
        omega

/-! ## Length-delimited pbf fields

`pbf_builder::add_string(type, text)` writes the field key
`(tag << 3) | 2` as a varint, then the length as a varint, then the raw
bytes.  `pbf_message::next()/get_view()` parse one such field. -/

/-- Bytes written by `pbf_builder::add_string(tag, text)`:
key varint, length varint, payload. -/
def encodeStringField (tag : Nat) (text : List Nat) : List Nat :=
  varintEncode (tag * 8 + 2) ++ varintEncode text.length ++ text

/-- Parse one length-delimited field: key varint (wire type must be 2),
length varint, payload.  Returns the payload view and the rest. -/
def parseField (data : List Nat) : Option (List Nat × List Nat) :=
  match parseVarint data with
  | none => none
  | some (key, r1) =>
      if key % 8 = 2 then
        match parseVarint r1 with
        | none => none
        | some (len, r2) =>
            if len ≤ r2.length then some (r2.take len, r2.drop len)
            else none
      else none

theorem parseField_encodeStringField (tag : Nat) (text rest : List Nat) :
    parseField (encodeStringField tag text ++ rest) = some (text, rest) := by
  unfold parseField encodeStringField
  rw [List.append_assoc, List.append_assoc, parseVarint_varintEncode]
  have hkey : (tag * 8 + 2) % 8 = 2 := by omega
  simp only [hkey, if_true, parseVarint_varintEncode]
  have hle : text.length ≤ (text ++ rest).length := by
    simp [List.length_append]
  simp [hle, List.take_left, List.drop_left]

theorem parseField_length {data payload rest : List Nat}
    (h : parseField data = some (payload, rest)) : rest.length < data.length := by
  unfold parseField at h
  cases h1 : parseVarint data with
  | none => rw [h1] at h; simp at h
  | some p1 =>
    rw [h1] at h
    obtain ⟨key, r1⟩ := p1
    by_cases hk : key % 8 = 2
    · simp only [hk, if_true] at h
      cases h2 : parseVarint r1 with
      | none => rw [h2] at h; simp at h
      | some p2 =>
        rw [h2] at h
        obtain ⟨len, r2⟩ := p2
        by_cases hl : len ≤ r2.length
        · simp only [hl, if_true, Option.some.injEq, Prod.mk.injEq] at h
          obtain ⟨he, hrest⟩ := h
          subst hrest
          have l1 := parseVarint_length h1
          have l2 := parseVarint_length h2
          simp only [List.length_drop]
          omega
        · simp [hl] at h
    · simp [hk] at h

/-- Concatenation of a list of byte strings. -/
def catList : List (List Nat) → List Nat
  | [] => []
  | x :: xs => x ++ catList xs

theorem catList_append (a b : List (List Nat)) :
    catList (a ++ b) = catList a ++ catList b := by
  induction a with
  | nil => simp [catList]
  | cons x xs ih => simp [catList, ih]

/-- The serialized bytes of an interning table holding entries `es`,
each written by `add_string(tag, ·)`. -/
def encodeTable (tag : Nat) (es : List (List Nat)) : List Nat :=
  catList (es.map (encodeStringField tag))

/-- Parse all length-delimited entries of a table, in order; structural
in a fuel argument (any fuel of at least `data.length` is exact).  This
is the iteration `while (pbf_table.next()) ...` over the table bytes. -/
def parseEntriesAux : Nat → List Nat → Option (List (List Nat))
  | _, [] => some []
  | 0, _ :: _ => none
  | fuel + 1, data =>
      match parseField data with
      | none => none
      | some (e, rest) =>
          match parseEntriesAux fuel rest with
          | none => none
          | some es => some (e :: es)

/-- Parse all entries of an interning table's serialized bytes. -/
def parseEntries (data : List Nat) : Option (List (List Nat)) :=
  parseEntriesAux data.length data

theorem parseEntriesAux_encodeTable (tag : Nat) (es : List (List Nat)) :
    ∀ fuel, (encodeTable tag es).length ≤ fuel →
    parseEntriesAux fuel (encodeTable tag es) = some es := by
  induction es with
  | nil =>
    intro fuel _
    show parseEntriesAux fuel [] = some []
    cases fuel <;> rfl
  | cons e rest ih =>
    intro fuel hfuel
    have hdata : encodeTable tag (e :: rest) =
        encodeStringField tag e ++ encodeTable tag rest := by
      simp [encodeTable, catList]
    have hfield_len : 1 ≤ (encodeStringField tag e).length := by
      simp only [encodeStringField, List.length_append]
      cases hv : varintEncode (tag * 8 + 2) with
      | nil =>
        have := parseVarint_varintEncode (tag * 8 + 2) []
        rw [hv] at this
        simp [parseVarint] at this
      | cons a b => simp; omega
    have hlen : (encodeTable tag (e :: rest)).length =
        (encodeStringField tag e).length + (encodeTable tag rest).length := by
      rw [hdata, List.length_append]
    obtain ⟨f, rfl⟩ : ∃ f, fuel = f + 1 := by
      cases fuel with
      | zero => omega
      | succ f => exact ⟨f, rfl⟩
    have hne : encodeTable tag (e :: rest) ≠ [] := by
      intro h
      rw [h] at hlen
      simp at hlen
      omega
    obtain ⟨b, bs, hcons⟩ : ∃ b bs, encodeTable tag (e :: rest) = b :: bs := by
      cases hd : encodeTable tag (e :: rest) with
      | nil => exact absurd hd hne
      | cons b bs => exact ⟨b, bs, rfl⟩
    have hpf : parseField (encodeTable tag (e :: rest)) = some (e, encodeTable tag rest) := by
      rw [hdata]
      exact parseField_encodeStringField tag e (encodeTable tag rest)
    rw [hcons, parseEntriesAux, ← hcons, hpf]
    · simp only [ih f (by omega)]
    · simp

theorem parseEntries_encodeTable (tag : Nat) (es : List (List Nat)) :
    parseEntries (encodeTable tag es) = some es :=
  parseEntriesAux_encodeTable tag es _ le_rfl

/-! ## The interning `string_table`

`index_value` is modelled as `Option Nat`: `none` is the
default-constructed invalid sentinel, `some i` a valid index. -/

/-- `string_table::max_entries_flat`: below this entry count duplicate
detection is a linear scan, at and above it a hash map is used. -/
def max_entries_flat : Nat := 20

/-- The `std::unordered_map<std::string, index_value>` table index,
modelled as an association list of key/`index_value` pairs. -/
abbrev IndexMap := List (List Nat × Option Nat)

/-- Map lookup: `none` when the key is absent, otherwise the stored
`index_value` (which itself may be the invalid sentinel). -/
def mapLookup : IndexMap → List Nat → Option (Option Nat)
  | [], _ => none
  | (k, v) :: m, t => if k = t then some v else mapLookup m t

/-- `map[key] = value`: overwrite the stored value if the key is
present, append the pair otherwise. -/
def mapInsert : IndexMap → List Nat → Option Nat → IndexMap
  | [], t, v => [(t, v)]
  | (k, w) :: m, t, v => if k = t then (k, v) :: m else (k, w) :: mapInsert m t v

/-- `string_table::find_in_table`, structural in a fuel argument: walk
the encoded table entry by entry, returning the running index on the
first entry equal to `text`, the invalid sentinel when the table is
exhausted. -/
def findInTableAux (text : List Nat) : Nat → Nat → List Nat → Option Nat
  | _, _, [] => none
  | _, 0, _ :: _ => none
  | index, fuel + 1, data =>
      match parseField data with
      | none => none
      | some (v, rest) =>
          if v = text then some index
          else findInTableAux text (index + 1) fuel rest

/-- `string_table::find_in_table(text, data)`. -/
def find_in_table (text data : List Nat) : Option Nat :=
  findInTableAux text 0 data.length data

/-- `string_table::populate_index`, structural in a fuel argument: walk
the encoded table and store `map[entry] = index++` for every entry. -/
def populateIndexAux : Nat → Nat → List Nat → IndexMap → IndexMap
  | _, _, [], m => m
  | _, 0, _ :: _, m => m
  | index, fuel + 1, data, m =>
      match parseField data with
      | none => m
      | some (e, rest) => populateIndexAux (index + 1) fuel rest (mapInsert m e (some index))

/-- `string_table::populate_index(data, map)` starting from the empty map. -/
def populate_index (data : List Nat) : IndexMap :=
  populateIndexAux 0 data.length data []

/-- The state of a `string_table`: the encoded table buffer, the lazily
populated index map, the entry count and the pbf field tag used for
entries. -/
structure StringTable where
  m_data : List Nat
  m_index : IndexMap
  m_num : Nat
  m_pbf_type : Nat
  deriving DecidableEq, Repr

/-- `string_table(pbf_type)`: a fresh table. -/
def StringTable.fresh (pbf_type : Nat) : StringTable :=
  { m_data := [], m_index := [], m_num := 0, m_pbf_type := pbf_type }

/-- `string_table::add_without_dup_check`: append the entry to the pbf
buffer and return the previous count as the new index. -/
def StringTable.add_without_dup_check (st : StringTable) (text : List Nat) :
    Nat × StringTable :=
  (st.m_num,
   { st with
     m_data := st.m_data ++ encodeStringField st.m_pbf_type text
     m_num := st.m_num + 1 })

/-- `string_table::find`: below the threshold, a linear scan of the
serialized bytes without touching the state; at or above it, populate
the index map from the bytes if it is still empty, then look the text
up, appending it as a new entry on a miss. -/
def StringTable.find (st : StringTable) (text : List Nat) :
    Option Nat × StringTable :=
  if st.m_num < max_entries_flat then
    (find_in_table text st.m_data, st)
  else
    let idx := if st.m_index = [] then populate_index st.m_data else st.m_index
    match mapLookup idx text with
    | some (some i) => (some i, { st with m_index := idx })
    | _ =>
        let (newIndex, st') :=
          StringTable.add_without_dup_check { st with m_index := idx } text
        (some newIndex, { st' with m_index := mapInsert idx text (some newIndex) })

/-- `string_table::add`: deduplicating add. -/
def StringTable.add (st : StringTable) (text : List Nat) : Nat × StringTable :=
  match st.find text with
  | (some i, st') => (i, st')
  | (none, st') => st'.add_without_dup_check text

/-- Run a sequence of deduplicating `add` calls, collecting the
returned indices. -/
def StringTable.runAdds (st : StringTable) : List (List Nat) → List Nat × StringTable
  | [] => ([], st)
  | t :: ts =>
      let (i, st') := st.add t
      let (is, st'') := st'.runAdds ts
      (i :: is, st'')

/-! ## Characterizing the table operations on entry lists -/

/-- Index of the first occurrence of `text` in an entry list. -/
def firstIdx (text : List Nat) : List (List Nat) → Option Nat
  | [] => none
  | e :: es => if e = text then some 0 else (firstIdx text es).map (· + 1)

/-- Index of the last occurrence of `text` in an entry list. -/
def lastIdx (text : List Nat) : List (List Nat) → Option Nat
  | [] => none
  | e :: es =>
      match lastIdx text es with
      | some k => some (k + 1)
      | none => if e = text then some 0 else none

theorem firstIdx_get {text : List Nat} {es : List (List Nat)} {i : Nat}
    (h : firstIdx text es = some i) : es.get? i = some text := by
  induction es generalizing i with
  | nil => simp [firstIdx] at h
  | cons e es ih =>
    simp only [firstIdx] at h
    by_cases he : e = text
    · simp only [he, if_true, Option.some.injEq] at h
      subst h
      simp [he]
    · simp only [he, if_false, Option.map_eq_some'] at h
      obtain ⟨j, hj, hji⟩ := h
      subst hji
      simpa using ih hj

theorem firstIdx_eq_none_iff {text : List Nat} {es : List (List Nat)} :
    firstIdx text es = none ↔ text ∉ es := by
  induction es with
  | nil => simp [firstIdx]
  | cons e es ih =>
    by_cases he : e = text
    · simp [firstIdx, he]
    · rw [firstIdx, if_neg he, Option.map_eq_none', ih]
      simp only [List.mem_cons, not_or]
      constructor
      · intro hn
        exact ⟨fun h1 => he h1.symm, hn⟩
      · intro hn
        exact hn.2

theorem firstIdx_lt_length {text : List Nat} {es : List (List Nat)} {i : Nat}
    (h : firstIdx text es = some i) : i < es.length := by
  induction es generalizing i with
  | nil => simp [firstIdx] at h
  | cons e es ih =>
    simp only [firstIdx] at h
    by_cases he : e = text
    · simp only [he, if_true, Option.some.injEq] at h
      subst h
      simp
    · simp only [he, if_false, Option.map_eq_some'] at h
      obtain ⟨j, hj, hji⟩ := h
      subst hji
      have := ih hj
      simp only [List.length_cons]
      omega

theorem firstIdx_append_of_some {text : List Nat} {es : List (List Nat)} {i : Nat}
    (t : List Nat) (h : firstIdx text es = some i) :
    firstIdx text (es ++ [t]) = some i := by
  induction es generalizing i with
  | nil => simp [firstIdx] at h
  | cons e es ih =>
    simp only [firstIdx] at h
    show (if e = text then some 0 else (firstIdx text (es ++ [t])).map (· + 1)) = some i
    by_cases he : e = text
    · simp only [he, if_true, Option.some.injEq] at h
      simp [he, ← h]
    · simp only [he, if_false] at h ⊢
      obtain ⟨j, hj, hji⟩ := Option.map_eq_some'.mp h
      rw [ih hj]
      simp [hji]

theorem firstIdx_append_of_none {text : List Nat} {es : List (List Nat)}
    (t : List Nat) (h : firstIdx text es = none) :
    firstIdx text (es ++ [t]) = if t = text then some es.length else none := by
  induction es with
  | nil => simp [firstIdx]
  | cons e es ih =>
    simp only [firstIdx] at h
    by_cases he : e = text
    · simp [he] at h
    · simp only [he, if_false, Option.map_eq_none'] at h
      show (if e = text then some 0 else (firstIdx text (es ++ [t])).map (· + 1)) =
        if t = text then some (es.length + 1) else none
      rw [if_neg he, ih h]
      by_cases ht : t = text
      · simp [ht]
      · simp [ht]

theorem lastIdx_get {text : List Nat} {es : List (List Nat)} {i : Nat}
    (h : lastIdx text es = some i) : es.get? i = some text := by
  induction es generalizing i with
  | nil => simp [lastIdx] at h
  | cons e es ih =>
    simp only [lastIdx] at h
    cases hl : lastIdx text es with
    | some k =>
      rw [hl] at h
      simp only [Option.some.injEq] at h
      subst h
      simpa using ih hl
    | none =>
      rw [hl] at h
      by_cases he : e = text
      · simp only [he, if_true, Option.some.injEq] at h
        subst h
        simp [he]
      · simp [he] at h

theorem lastIdx_eq_firstIdx_of_nodup {text : List Nat} {es : List (List Nat)}
    (h : es.Nodup) : lastIdx text es = firstIdx text es := by
  induction es with
  | nil => rfl
  | cons e es ih =>
    simp only [List.nodup_cons] at h
    simp only [lastIdx, firstIdx]
    rw [ih h.2]
    by_cases he : e = text
    · have hmem : text ∉ es := he ▸ h.1
      have hnone : firstIdx text es = none := firstIdx_eq_none_iff.mpr hmem
      rw [hnone]
      simp [he]
    · cases hf : firstIdx text es with
      | none => simp [he]
      | some k => simp [he]

/-! ### `find_in_table` computes the first occurrence -/

theorem findInTableAux_encodeTable (text : List Nat) (tag : Nat)
    (es : List (List Nat)) :
    ∀ fuel, (encodeTable tag es).length ≤ fuel → ∀ i0,
    findInTableAux text i0 fuel (encodeTable tag es) =
      (firstIdx text es).map (· + i0) := by
  induction es with
  | nil =>
    intro fuel _ i0
    show findInTableAux text i0 fuel [] = none
    cases fuel <;> rfl
  | cons e rest ih =>
    intro fuel hfuel i0
    have hdata : encodeTable tag (e :: rest) =
        encodeStringField tag e ++ encodeTable tag rest := by
      simp [encodeTable, catList]
    have hfield_len : 1 ≤ (encodeStringField tag e).length := by
      simp only [encodeStringField, List.length_append]
      cases hv : varintEncode (tag * 8 + 2) with
      | nil =>
        have := parseVarint_varintEncode (tag * 8 + 2) []
        rw [hv] at this
        simp [parseVarint] at this
      | cons a b => simp; omega
    have hlen : (encodeTable tag (e :: rest)).length =
        (encodeStringField tag e).length + (encodeTable tag rest).length := by
      rw [hdata, List.length_append]
    obtain ⟨f, rfl⟩ : ∃ f, fuel = f + 1 := by
      cases fuel with
      | zero => omega
      | succ f => exact ⟨f, rfl⟩
    obtain ⟨b, bs, hcons⟩ : ∃ b bs, encodeTable tag (e :: rest) = b :: bs := by
      cases hd : encodeTable tag (e :: rest) with
      | nil =>
        rw [hd] at hlen
        simp at hlen
        omega
      | cons b bs => exact ⟨b, bs, rfl⟩
    have hpf : parseField (encodeTable tag (e :: rest)) = some (e, encodeTable tag rest) := by
      rw [hdata]
      exact parseField_encodeStringField tag e (encodeTable tag rest)
    rw [hcons, findInTableAux, ← hcons, hpf]
    · by_cases he : e = text
      · simp [he, firstIdx]
      · simp only [he, if_false, firstIdx, ih f (by omega) (i0 + 1)]
        cases hf : firstIdx text rest with
        | none => simp
        | some k =>
          simp only [Option.map_some']
          have : k + (i0 + 1) = k + 1 + i0 := by omega
          rw [this]
    · simp

theorem find_in_table_encodeTable (text : List Nat) (tag : Nat)
    (es : List (List Nat)) :
    find_in_table text (encodeTable tag es) = firstIdx text es := by
  unfold find_in_table
  rw [findInTableAux_encodeTable text tag es _ le_rfl 0]
  cases firstIdx text es <;> simp

/-! ### Map lemmas and `populate_index` -/

theorem mapLookup_mapInsert (m : IndexMap) (k t : List Nat) (v : Option Nat) :
    mapLookup (mapInsert m k v) t = if k = t then some v else mapLookup m t := by
  induction m with
  | nil => simp [mapInsert, mapLookup]
  | cons p m ih =>
    obtain ⟨k', w⟩ := p
    by_cases hk : k' = k
    · subst hk
      simp only [mapInsert, if_pos rfl, mapLookup]
      by_cases ht : k' = t <;> simp [ht]
    · simp only [mapInsert, hk, if_false, mapLookup, ih]
      by_cases ht : k' = t
      · subst ht
        have : ¬ k = k' := fun h => hk h.symm
        simp [this]
      · simp [ht]

theorem populateIndexAux_lookup (tag : Nat) (es : List (List Nat)) :
    ∀ fuel, (encodeTable tag es).length ≤ fuel → ∀ i0 m t,
    mapLookup (populateIndexAux i0 fuel (encodeTable tag es) m) t =
      match lastIdx t es with
      | some k => some (some (i0 + k))
      | none => mapLookup m t := by
  induction es with
  | nil =>
    intro fuel _ i0 m t
    have : populateIndexAux i0 fuel [] m = m := by cases fuel <;> rfl
    show mapLookup (populateIndexAux i0 fuel [] m) t = _
    rw [this]
    rfl
  | cons e rest ih =>
    intro fuel hfuel i0 m t
    have hdata : encodeTable tag (e :: rest) =
        encodeStringField tag e ++ encodeTable tag rest := by
      simp [encodeTable, catList]
    have hfield_len : 1 ≤ (encodeStringField tag e).length := by
      simp only [encodeStringField, List.length_append]
      cases hv : varintEncode (tag * 8 + 2) with
      | nil =>
        have := parseVarint_varintEncode (tag * 8 + 2) []
        rw [hv] at this
        simp [parseVarint] at this
      | cons a b => simp; omega
    have hlen : (encodeTable tag (e :: rest)).length =
        (encodeStringField tag e).length + (encodeTable tag rest).length := by
      rw [hdata, List.length_append]
    obtain ⟨f, rfl⟩ : ∃ f, fuel = f + 1 := by
      cases fuel with
      | zero => omega
      | succ f => exact ⟨f, rfl⟩
    obtain ⟨b, bs, hcons⟩ : ∃ b bs, encodeTable tag (e :: rest) = b :: bs := by
      cases hd : encodeTable tag (e :: rest) with
      | nil =>
        rw [hd] at hlen
        simp at hlen
        omega
      | cons b bs => exact ⟨b, bs, rfl⟩
    have hpf : parseField (encodeTable tag (e :: rest)) = some (e, encodeTable tag rest) := by
      rw [hdata]
      exact parseField_encodeStringField tag e (encodeTable tag rest)
    rw [hcons, populateIndexAux, ← hcons, hpf]
    · rw [ih f (by omega) (i0 + 1) (mapInsert m e (some i0)) t]
      simp only [lastIdx]
      cases hl : lastIdx t rest with
      | some k =>
        show some (some (i0 + 1 + k)) = some (some (i0 + (k + 1)))
        have : i0 + 1 + k = i0 + (k + 1) := by omega
        rw [this]
      | none =>
        simp only [mapLookup_mapInsert]
        by_cases he : e = t <;> simp [he]
    · simp

theorem populate_index_lookup (tag : Nat) (es : List (List Nat)) (t : List Nat) :
    mapLookup (populate_index (encodeTable tag es)) t =
      match lastIdx t es with
      | some k => some (some k)
      | none => none := by
  unfold populate_index
  rw [populateIndexAux_lookup tag es _ le_rfl 0 [] t]
  cases lastIdx t es with
  | some k => simp
  | none => rfl

theorem populate_index_lookup_nodup (tag : Nat) {es : List (List Nat)}
    (h : es.Nodup) (t : List Nat) :
    mapLookup (populate_index (encodeTable tag es)) t = (firstIdx t es).map some := by
  rw [populate_index_lookup tag es t, lastIdx_eq_firstIdx_of_nodup h]
  cases firstIdx t es <;> simp

theorem encodeTable_append (tag : Nat) (es : List (List Nat)) (t : List Nat) :
    encodeTable tag (es ++ [t]) = encodeTable tag es ++ encodeStringField tag t := by
  simp [encodeTable, catList_append, catList]

theorem nodup_append_singleton {es : List (List Nat)} {t : List Nat}
    (h : es.Nodup) (ht : t ∉ es) : (es ++ [t]).Nodup := by
  rw [List.nodup_append]
  refine ⟨h, List.nodup_singleton t, ?_⟩
  intro a ha hb
  simp only [List.mem_singleton] at hb
  subst hb
  exact ht ha

/-! ### Well-formed table states for duplicate-free (dedup-only) runs -/

/-- Invariant of a `string_table` state holding the duplicate-free entry
list `es`: data is the encoded table, the count is the entry count, and
the index map is either still unpopulated or — from the threshold on —
maps every text to its (unique) occurrence. -/
structure STWF (st : StringTable) (es : List (List Nat)) : Prop where
  data_eq : st.m_data = encodeTable st.m_pbf_type es
  num_eq : st.m_num = es.length
  nodup : es.Nodup
  index_char : st.m_index = [] ∨
    (max_entries_flat ≤ st.m_num ∧
     ∀ t, mapLookup st.m_index t = (firstIdx t es).map some)

/-- One deduplicating add at the level of entry lists: return the index
of the first occurrence, appending the text as a new entry on a miss. -/
def addModel (es : List (List Nat)) (text : List Nat) : Nat × List (List Nat) :=
  match firstIdx text es with
  | some i => (i, es)
  | none => (es.length, es ++ [text])

theorem STWF.fresh_strong (tag : Nat) : STWF (StringTable.fresh tag) [] := by
  refine ⟨rfl, rfl, List.nodup_nil, Or.inl rfl⟩

theorem STWF.add_strong_spec {st : StringTable} {es : List (List Nat)}
    (h : STWF st es) (text : List Nat) :
    (st.add text).1 = (addModel es text).1 ∧
    STWF (st.add text).2 (addModel es text).2 ∧
    (st.add text).2.m_pbf_type = st.m_pbf_type := by
  obtain ⟨hdata, hnum, hnodup, hidx⟩ := h
  by_cases hlt : st.m_num < max_entries_flat
  · -- below the threshold: linear scan of the encoded bytes
    have hfind : st.find text = (firstIdx text es, st) := by
      unfold StringTable.find
      rw [if_pos hlt, hdata, find_in_table_encodeTable]
    cases hf : firstIdx text es with
    | some i =>
      have : st.add text = (i, st) := by
        unfold StringTable.add
        rw [hfind, hf]
      rw [this]
      unfold addModel
      rw [hf]
      exact ⟨rfl, ⟨hdata, hnum, hnodup, hidx⟩, rfl⟩
    | none =>
      have hmem : text ∉ es := firstIdx_eq_none_iff.mp hf
      have : st.add text = st.add_without_dup_check text := by
        unfold StringTable.add
        rw [hfind, hf]
      rw [this]
      unfold addModel
      rw [hf]
      unfold StringTable.add_without_dup_check
      refine ⟨hnum, ⟨?_, ?_, ?_, ?_⟩, rfl⟩
      · simp only [hdata]
        rw [encodeTable_append]
      · simp [hnum]
      · exact nodup_append_singleton hnodup hmem
      · rcases hidx with h0 | ⟨h20, _⟩
        · exact Or.inl h0
        · omega
  · -- at or above the threshold: the index map is consulted
    set idx := if st.m_index = [] then populate_index st.m_data else st.m_index with hidx_def
    have hchar : ∀ t, mapLookup idx t = (firstIdx t es).map some := by
      intro t
      rw [hidx_def]
      by_cases hempty : st.m_index = []
      · rw [if_pos hempty, hdata]
        exact populate_index_lookup_nodup st.m_pbf_type hnodup t
      · rw [if_neg hempty]
        rcases hidx with h0 | ⟨_, hc⟩
        · exact absurd h0 hempty
        · exact hc t
    cases hf : firstIdx text es with
    | some i =>
      have hlook : mapLookup idx text = some (some i) := by
        rw [hchar, hf]
        rfl
      have hfind : st.find text = (some i, { st with m_index := idx }) := by
        unfold StringTable.find
        rw [if_neg hlt, ← hidx_def]
        simp only [hlook]
      have : st.add text = (i, { st with m_index := idx }) := by
        unfold StringTable.add
        rw [hfind]
      rw [this]
      unfold addModel
      rw [hf]
      have h20 : max_entries_flat ≤ st.m_num := by omega
      exact ⟨rfl, ⟨hdata, hnum, hnodup, Or.inr ⟨h20, hchar⟩⟩, rfl⟩
    | none =>
      have hmem : text ∉ es := firstIdx_eq_none_iff.mp hf
      have hlook : mapLookup idx text = none := by
        rw [hchar, hf]
        rfl
      have hfind : st.find text =
          (some st.m_num,
           { st with
             m_data := st.m_data ++ encodeStringField st.m_pbf_type text
             m_num := st.m_num + 1
             m_index := mapInsert idx text (some st.m_num) }) := by
        unfold StringTable.find
        rw [if_neg hlt, ← hidx_def]
        simp only [hlook, StringTable.add_without_dup_check]
      have : st.add text =
          (st.m_num,
           { st with
             m_data := st.m_data ++ encodeStringField st.m_pbf_type text
             m_num := st.m_num + 1
             m_index := mapInsert idx text (some st.m_num) }) := by
        unfold StringTable.add
        rw [hfind]
      rw [this]
      unfold addModel
      rw [hf]
      have h21 : max_entries_flat ≤ st.m_num + 1 := by omega
      refine ⟨hnum, ⟨?_, ?_, ?_, ?_⟩, rfl⟩
      · simp only [hdata]
        rw [encodeTable_append]
      · simp [hnum]
      · exact nodup_append_singleton hnodup hmem
      · refine Or.inr ⟨h21, ?_⟩
        intro t
        rw [mapLookup_mapInsert]
        by_cases ht : text = t
        · subst ht
          rw [if_pos rfl, firstIdx_append_of_none text hf, if_pos rfl, hnum]
          rw [Option.map_some']
        · rw [if_neg ht]
          rw [hchar t]
          cases hft : firstIdx t es with
          | some i => rw [firstIdx_append_of_some text hft]
          | none =>
            rw [firstIdx_append_of_none text hft, if_neg ht]

/-- Run of deduplicating adds at the entry-list level. -/
def runAddsModel (es : List (List Nat)) : List (List Nat) → List Nat × List (List Nat)
  | [] => ([], es)
  | t :: ts =>
      let (i, es') := addModel es t
      let (is, es'') := runAddsModel es' ts
      (i :: is, es'')

theorem STWF.runAdds_strong_spec {st : StringTable} {es : List (List Nat)}
    (h : STWF st es) (ts : List (List Nat)) :
    (st.runAdds ts).1 = (runAddsModel es ts).1 ∧
    STWF (st.runAdds ts).2 (runAddsModel es ts).2 ∧
    (st.runAdds ts).2.m_pbf_type = st.m_pbf_type := by
  induction ts generalizing st es with
  | nil => exact ⟨rfl, h, rfl⟩
  | cons t ts ih =>
    obtain ⟨h1, h2, h3⟩ := STWF.add_strong_spec h t
    obtain ⟨ih1, ih2, ih3⟩ := ih h2
    refine ⟨?_, ?_, ?_⟩
    · show ((st.add t).2.runAdds ts).1.cons (st.add t).1 =
        ((runAddsModel (addModel es t).2 ts).1).cons (addModel es t).1
      rw [h1, ih1]
    · exact ih2
    · show ((st.add t).2.runAdds ts).2.m_pbf_type = st.m_pbf_type
      rw [ih3, h3]

/-! ### The spec-side comparison table for the interning threshold -/

/-- Modelled from the spec: the comparison implementation of the
interning-threshold property, "a layer built with N keys where the map
was used from the start" — identical serialized table and entry count,
but duplicate detection always consults the string-to-index map, which
is maintained from the first entry on. -/
structure MapFromStartTable where
  m_data : List Nat
  m_index : IndexMap
  m_num : Nat
  m_pbf_type : Nat
  deriving DecidableEq, Repr

/-- A fresh map-from-start table. -/
def MapFromStartTable.fresh (pbf_type : Nat) : MapFromStartTable :=
  { m_data := [], m_index := [], m_num := 0, m_pbf_type := pbf_type }

/-- Deduplicating add that always uses the map. -/
def MapFromStartTable.add (st : MapFromStartTable) (text : List Nat) :
    Nat × MapFromStartTable :=
  match mapLookup st.m_index text with
  | some (some i) => (i, st)
  | _ =>
      (st.m_num,
       { st with
         m_data := st.m_data ++ encodeStringField st.m_pbf_type text
         m_num := st.m_num + 1
         m_index := mapInsert st.m_index text (some st.m_num) })

/-- Run a sequence of adds on the map-from-start table. -/
def MapFromStartTable.runAdds (st : MapFromStartTable) :
    List (List Nat) → List Nat × MapFromStartTable
  | [] => ([], st)
  | t :: ts =>
      let (i, st') := st.add t
      let (is, st'') := st'.runAdds ts
      (i :: is, st'')

/-- Invariant of a map-from-start table holding entry list `es`. -/
structure MFWF (st : MapFromStartTable) (es : List (List Nat)) : Prop where
  data_eq : st.m_data = encodeTable st.m_pbf_type es
  num_eq : st.m_num = es.length
  nodup : es.Nodup
  index_char : ∀ t, mapLookup st.m_index t = (firstIdx t es).map some

theorem MFWF.fresh_mf (tag : Nat) : MFWF (MapFromStartTable.fresh tag) [] :=
  ⟨rfl, rfl, List.nodup_nil, fun _ => rfl⟩

theorem MFWF.add_mf_spec {st : MapFromStartTable} {es : List (List Nat)}
    (h : MFWF st es) (text : List Nat) :
    (st.add text).1 = (addModel es text).1 ∧
    MFWF (st.add text).2 (addModel es text).2 ∧
    (st.add text).2.m_pbf_type = st.m_pbf_type := by
  obtain ⟨hdata, hnum, hnodup, hchar⟩ := h
  cases hf : firstIdx text es with
  | some i =>
    have hlook : mapLookup st.m_index text = some (some i) := by
      rw [hchar, hf]
      rfl
    have : st.add text = (i, st) := by
      unfold MapFromStartTable.add
      rw [hlook]
    rw [this]
    unfold addModel
    rw [hf]
    exact ⟨rfl, ⟨hdata, hnum, hnodup, hchar⟩, rfl⟩
  | none =>
    have hlook : mapLookup st.m_index text = none := by
      rw [hchar, hf]
      rfl
    have : st.add text =
        (st.m_num,
         { st with
           m_data := st.m_data ++ encodeStringField st.m_pbf_type text
           m_num := st.m_num + 1
           m_index := mapInsert st.m_index text (some st.m_num) }) := by
      unfold MapFromStartTable.add
      rw [hlook]
    rw [this]
    unfold addModel
    rw [hf]
    refine ⟨hnum, ⟨?_, ?_, ?_, ?_⟩, rfl⟩
    · simp only [hdata]
      rw [encodeTable_append]
    · simp [hnum]
    · exact nodup_append_singleton hnodup (firstIdx_eq_none_iff.mp hf)
    · intro t
      rw [mapLookup_mapInsert]
      by_cases ht : text = t
      · subst ht
        rw [if_pos rfl, firstIdx_append_of_none text hf, if_pos rfl, hnum]
        rw [Option.map_some']
      · rw [if_neg ht, hchar t]
        cases hft : firstIdx t es with
        | some i => rw [firstIdx_append_of_some text hft]
        | none => rw [firstIdx_append_of_none text hft, if_neg ht]

theorem MFWF.runAdds_mf_spec {st : MapFromStartTable} {es : List (List Nat)}
    (h : MFWF st es) (ts : List (List Nat)) :
    (st.runAdds ts).1 = (runAddsModel es ts).1 ∧
    MFWF (st.runAdds ts).2 (runAddsModel es ts).2 ∧
    (st.runAdds ts).2.m_pbf_type = st.m_pbf_type := by
  induction ts generalizing st es with
  | nil => exact ⟨rfl, h, rfl⟩
  | cons t ts ih =>
    obtain ⟨h1, h2, h3⟩ := MFWF.add_mf_spec h t
    obtain ⟨ih1, ih2, ih3⟩ := ih h2
    refine ⟨?_, ih2, ?_⟩
    · show ((st.add t).2.runAdds ts).1.cons (st.add t).1 =
        ((runAddsModel (addModel es t).2 ts).1).cons (addModel es t).1
      rw [h1, ih1]
    · show ((st.add t).2.runAdds ts).2.m_pbf_type = st.m_pbf_type
      rw [ih3, h3]

/-! ### Index stability under appends, and the model run characterized -/

theorem get?_append_lt {α : Type} {l : List α} (l' : List α) {i : Nat}
    (h : i < l.length) : (l ++ l').get? i = l.get? i := by
  induction l generalizing i with
  | nil => simp at h
  | cons a l ih =>
    cases i with
    | zero => rfl
    | succ i =>
      simp only [List.length_cons] at h
      show (l ++ l').get? i = l.get? i
      exact ih (by omega)

theorem firstIdx_append_left {text : List Nat} {es : List (List Nat)} {i : Nat}
    (more : List (List Nat)) (h : firstIdx text es = some i) :
    firstIdx text (es ++ more) = some i := by
  induction es generalizing i with
  | nil => simp [firstIdx] at h
  | cons e es ih =>
    simp only [firstIdx] at h
    show (if e = text then some 0 else (firstIdx text (es ++ more)).map (· + 1)) = some i
    by_cases he : e = text
    · simp only [he, if_true, Option.some.injEq] at h
      simp [he, ← h]
    · simp only [he, if_false] at h ⊢
      obtain ⟨j, hj, hji⟩ := Option.map_eq_some'.mp h
      rw [ih hj]
      simp [hji]

theorem runAddsModel_extends (es : List (List Nat)) (ts : List (List Nat)) :
    ∃ more, (runAddsModel es ts).2 = es ++ more := by
  induction ts generalizing es with
  | nil => exact ⟨[], by simp [runAddsModel]⟩
  | cons t ts ih =>
    have hstep : (runAddsModel es (t :: ts)).2 = (runAddsModel (addModel es t).2 ts).2 := rfl
    obtain ⟨more, hm⟩ := ih (addModel es t).2
    rw [hstep, hm]
    unfold addModel
    cases hf : firstIdx t es with
    | some i => exact ⟨more, rfl⟩
    | none => exact ⟨[t] ++ more, by rw [List.append_assoc]⟩

theorem runAddsModel_indices (ts : List (List Nat)) :
    ∀ es k t, ts.get? k = some t →
    (runAddsModel es ts).1.get? k = firstIdx t (runAddsModel es ts).2 := by
  induction ts with
  | nil => intro es k t h; simp at h
  | cons t0 ts ih =>
    intro es k t h
    have hfst : (runAddsModel es (t0 :: ts)).1 =
        (addModel es t0).1 :: (runAddsModel (addModel es t0).2 ts).1 := rfl
    have hsnd : (runAddsModel es (t0 :: ts)).2 =
        (runAddsModel (addModel es t0).2 ts).2 := rfl
    obtain ⟨more, hmore⟩ := runAddsModel_extends (addModel es t0).2 ts
    cases k with
    | zero =>
      simp only [List.get?] at h
      obtain rfl : t0 = t := by injection h
      rw [hfst, hsnd]
      show some (addModel es t0).1 = firstIdx t0 (runAddsModel (addModel es t0).2 ts).2
      rw [hmore]
      unfold addModel
      cases hf : firstIdx t0 es with
      | some i =>
        rw [firstIdx_append_left more hf]
      | none =>
        have h1 : firstIdx t0 (es ++ [t0]) = some es.length := by
          rw [firstIdx_append_of_none t0 hf, if_pos rfl]
        show some es.length = firstIdx t0 ((es ++ [t0]) ++ more)
        rw [firstIdx_append_left more h1]
    | succ k =>
      simp only [List.get?] at h
      rw [hfst, hsnd]
      show (runAddsModel (addModel es t0).2 ts).1.get? k =
        firstIdx t (runAddsModel (addModel es t0).2 ts).2
      exact ih (addModel es t0).2 k t h

/-- The distinct texts of a list in order of first appearance,
accumulated onto `acc`. -/
def firstsAcc (acc : List (List Nat)) : List (List Nat) → List (List Nat)
  | [] => acc
  | t :: ts => if t ∈ acc then firstsAcc acc ts else firstsAcc (acc ++ [t]) ts

theorem runAddsModel_entries (ts : List (List Nat)) :
    ∀ es, (runAddsModel es ts).2 = firstsAcc es ts := by
  induction ts with
  | nil => intro es; rfl
  | cons t ts ih =>
    intro es
    have hsnd : (runAddsModel es (t :: ts)).2 =
        (runAddsModel (addModel es t).2 ts).2 := rfl
    rw [hsnd, ih]
    have hrhs : firstsAcc es (t :: ts) =
        if t ∈ es then firstsAcc es ts else firstsAcc (es ++ [t]) ts := rfl
    rw [hrhs]
    cases hf : firstIdx t es with
    | some i =>
      have hmem : t ∈ es := by
        by_contra hmem
        rw [firstIdx_eq_none_iff.mpr hmem] at hf
        cases hf
      have hm : (addModel es t).2 = es := by
        unfold addModel
        rw [hf]
      rw [if_pos hmem, hm]
    | none =>
      have hm : (addModel es t).2 = es ++ [t] := by
        unfold addModel
        rw [hf]
      rw [if_neg (firstIdx_eq_none_iff.mp hf), hm]

/-! ### Mixed runs: `add` and `add_without_dup_check` interleaved -/

theorem get?_some_lt {α : Type} {l : List α} {i : Nat} {a : α}
    (h : l.get? i = some a) : i < l.length := by
  induction l generalizing i with
  | nil => simp at h
  | cons b l ih =>
    cases i with
    | zero => simp
    | succ i =>
      have := ih h
      simp only [List.length_cons]
      omega

theorem get?_append_len {α : Type} (l l' : List α) :
    (l ++ l').get? l.length = l'.get? 0 := by
  induction l with
  | nil => rfl
  | cons a l ih => exact ih

/-- One interning call: a deduplicating `add` or a raw
`add_without_dup_check`. -/
inductive AddOp where
  | dedup (text : List Nat)
  | nodup (text : List Nat)
  deriving DecidableEq, Repr

/-- The text of an interning call. -/
def AddOp.text : AddOp → List Nat
  | .dedup t => t
  | .nodup t => t

/-- Execute one interning call on a `string_table`. -/
def StringTable.runOp (st : StringTable) : AddOp → Nat × StringTable
  | .dedup t => st.add t
  | .nodup t => st.add_without_dup_check t

/-- Execute a sequence of interning calls, collecting the returned
indices. -/
def StringTable.runOps (st : StringTable) : List AddOp → List Nat × StringTable
  | [] => ([], st)
  | op :: ops =>
      let (i, st') := st.runOp op
      let (is, st'') := st'.runOps ops
      (i :: is, st'')

/-- Weak invariant for arbitrary runs (duplicates permitted): data is
the encoded entry list, the count is the entry count, and every valid
index stored in the map points at an equal entry. -/
structure STSound (st : StringTable) (es : List (List Nat)) : Prop where
  data_eq : st.m_data = encodeTable st.m_pbf_type es
  num_eq : st.m_num = es.length
  index_sound : ∀ t j, mapLookup st.m_index t = some (some j) → es.get? j = some t
  index_no_invalid : ∀ t, mapLookup st.m_index t ≠ some none

theorem STSound.fresh_sound (tag : Nat) : STSound (StringTable.fresh tag) [] := by
  refine ⟨rfl, rfl, fun t j h => ?_, fun t h => ?_⟩ <;> cases h

theorem STSound.add_without_dup_check_spec {st : StringTable}
    {es : List (List Nat)} (h : STSound st es) (t : List Nat) :
    (st.add_without_dup_check t).1 = es.length ∧
    STSound (st.add_without_dup_check t).2 (es ++ [t]) := by
  obtain ⟨hdata, hnum, hsound, hnoinv⟩ := h
  refine ⟨hnum, ⟨?_, ?_, ?_, hnoinv⟩⟩
  · show st.m_data ++ encodeStringField st.m_pbf_type t =
      encodeTable st.m_pbf_type (es ++ [t])
    rw [hdata, encodeTable_append]
  · show st.m_num + 1 = (es ++ [t]).length
    simp [hnum]
  · intro t' j hj
    have := hsound t' j hj
    rw [get?_append_lt [t] (get?_some_lt this)]
    exact this

theorem STSound.add_sound_spec {st : StringTable} {es : List (List Nat)}
    (h : STSound st es) (t : List Nat) :
    ∃ es', STSound (st.add t).2 es' ∧
      (es' = es ∨ (es' = es ++ [t] ∧ (st.add t).1 = es.length)) ∧
      es'.get? (st.add t).1 = some t := by
  obtain ⟨hdata, hnum, hsound, hnoinv⟩ := h
  by_cases hlt : st.m_num < max_entries_flat
  · have hfind : st.find t = (firstIdx t es, st) := by
      unfold StringTable.find
      rw [if_pos hlt, hdata, find_in_table_encodeTable]
    cases hf : firstIdx t es with
    | some i =>
      have hadd : st.add t = (i, st) := by
        unfold StringTable.add
        rw [hfind, hf]
      refine ⟨es, ?_, Or.inl rfl, ?_⟩
      · rw [hadd]
        exact ⟨hdata, hnum, hsound, hnoinv⟩
      · rw [hadd]
        exact firstIdx_get hf
    | none =>
      have hadd : st.add t = st.add_without_dup_check t := by
        unfold StringTable.add
        rw [hfind, hf]
      obtain ⟨h1, h2⟩ := STSound.add_without_dup_check_spec ⟨hdata, hnum, hsound, hnoinv⟩ t
      refine ⟨es ++ [t], ?_, Or.inr ⟨rfl, ?_⟩, ?_⟩
      · rw [hadd]
        exact h2
      · rw [hadd, h1]
      · rw [hadd, h1, get?_append_len]
        rfl
  · set idx := if st.m_index = [] then populate_index st.m_data else st.m_index
      with hidx_def
    have hidx_sound : ∀ t' j, mapLookup idx t' = some (some j) → es.get? j = some t' := by
      intro t' j hj
      rw [hidx_def] at hj
      by_cases hempty : st.m_index = []
      · rw [if_pos hempty, hdata, populate_index_lookup st.m_pbf_type es t'] at hj
        cases hl : lastIdx t' es with
        | some k =>
          rw [hl] at hj
          simp only [Option.some.injEq] at hj
          rw [← hj]
          exact lastIdx_get hl
        | none =>
          rw [hl] at hj
          cases hj
      · rw [if_neg hempty] at hj
        exact hsound t' j hj
    have hidx_noinv : ∀ t', mapLookup idx t' ≠ some none := by
      intro t' hj
      rw [hidx_def] at hj
      by_cases hempty : st.m_index = []
      · rw [if_pos hempty, hdata, populate_index_lookup st.m_pbf_type es t'] at hj
        cases hl : lastIdx t' es with
        | some k =>
          rw [hl] at hj
          cases hj
        | none =>
          rw [hl] at hj
          cases hj
      · rw [if_neg hempty] at hj
        exact hnoinv t' hj
    cases hlook : mapLookup idx t with
    | some v =>
      cases v with
      | some i =>
        have hadd : st.add t = (i, { st with m_index := idx }) := by
          unfold StringTable.add StringTable.find
          rw [if_neg hlt, ← hidx_def]
          simp only [hlook]
        refine ⟨es, ?_, Or.inl rfl, ?_⟩
        · rw [hadd]
          exact ⟨hdata, hnum, hidx_sound, hidx_noinv⟩
        · rw [hadd]
          exact hidx_sound t i hlook
      | none =>
        have hadd : st.add t =
            (st.m_num,
             { st with
               m_data := st.m_data ++ encodeStringField st.m_pbf_type t
               m_num := st.m_num + 1
               m_index := mapInsert idx t (some st.m_num) }) := by
          unfold StringTable.add StringTable.find
          rw [if_neg hlt, ← hidx_def]
          simp only [hlook, StringTable.add_without_dup_check]
        refine ⟨es ++ [t], ?_, Or.inr ⟨rfl, ?_⟩, ?_⟩
        · rw [hadd]
          refine ⟨?_, ?_, ?_, ?_⟩
          · show st.m_data ++ encodeStringField st.m_pbf_type t =
              encodeTable st.m_pbf_type (es ++ [t])
            rw [hdata, encodeTable_append]
          · show st.m_num + 1 = (es ++ [t]).length
            simp [hnum]
          · intro t' j hj
            rw [mapLookup_mapInsert] at hj
            by_cases ht : t = t'
            · rw [if_pos ht] at hj
              simp only [Option.some.injEq] at hj
              rw [← hj, hnum, get?_append_len, ht]
              rfl
            · rw [if_neg ht] at hj
              have := hidx_sound t' j hj
              rw [get?_append_lt [t] (get?_some_lt this)]
              exact this
          · intro t' hj
            rw [mapLookup_mapInsert] at hj
            by_cases ht : t = t'
            · rw [if_pos ht] at hj
              cases hj
            · rw [if_neg ht] at hj
              exact hidx_noinv t' hj
        · rw [hadd, hnum]
        · rw [hadd, hnum, get?_append_len]
          rfl
    | none =>
      have hadd : st.add t =
          (st.m_num,
           { st with
             m_data := st.m_data ++ encodeStringField st.m_pbf_type t
             m_num := st.m_num + 1
             m_index := mapInsert idx t (some st.m_num) }) := by
        unfold StringTable.add StringTable.find
        rw [if_neg hlt, ← hidx_def]
        simp only [hlook, StringTable.add_without_dup_check]
      refine ⟨es ++ [t], ?_, Or.inr ⟨rfl, ?_⟩, ?_⟩
      · rw [hadd]
        refine ⟨?_, ?_, ?_, ?_⟩
        · show st.m_data ++ encodeStringField st.m_pbf_type t =
            encodeTable st.m_pbf_type (es ++ [t])
          rw [hdata, encodeTable_append]
        · show st.m_num + 1 = (es ++ [t]).length
          simp [hnum]
        · intro t' j hj
          rw [mapLookup_mapInsert] at hj
          by_cases ht : t = t'
          · rw [if_pos ht] at hj
            simp only [Option.some.injEq] at hj
            rw [← hj, hnum, get?_append_len, ht]
            rfl
          · rw [if_neg ht] at hj
            have := hidx_sound t' j hj
            rw [get?_append_lt [t] (get?_some_lt this)]
            exact this
        · intro t' hj
          rw [mapLookup_mapInsert] at hj
          by_cases ht : t = t'
          · rw [if_pos ht] at hj
            cases hj
          · rw [if_neg ht] at hj
            exact hidx_noinv t' hj
      · rw [hadd, hnum]
      · rw [hadd, hnum, get?_append_len]
        rfl

theorem STSound.runOps_sound_spec {st : StringTable} {es : List (List Nat)}
    (h : STSound st es) (ops : List AddOp) :
    ∃ more, STSound (st.runOps ops).2 (es ++ more) ∧
      (st.runOps ops).1.length = ops.length ∧
      ∀ k op i, ops.get? k = some op → (st.runOps ops).1.get? k = some i →
        (es ++ more).get? i = some op.text := by
  induction ops generalizing st es with
  | nil =>
    refine ⟨[], by simpa using h, rfl, ?_⟩
    intro k op i hop
    simp at hop
  | cons op ops ih =>
    have hfst : (st.runOps (op :: ops)).1 =
        (st.runOp op).1 :: ((st.runOp op).2.runOps ops).1 := rfl
    have hsnd : (st.runOps (op :: ops)).2 = ((st.runOp op).2.runOps ops).2 := rfl
    obtain ⟨es1, hst1, hext1, hget1⟩ : ∃ es1, STSound (st.runOp op).2 es1 ∧
        (es1 = es ∨ es1 = es ++ [op.text]) ∧
        es1.get? (st.runOp op).1 = some op.text := by
      cases op with
      | dedup t =>
        obtain ⟨es', h1, h2, h3⟩ := STSound.add_sound_spec h t
        refine ⟨es', h1, ?_, h3⟩
        rcases h2 with h2 | ⟨h2, -⟩
        · exact Or.inl h2
        · exact Or.inr h2
      | nodup t =>
        obtain ⟨h1, h2⟩ := h.add_without_dup_check_spec t
        refine ⟨es ++ [t], h2, Or.inr rfl, ?_⟩
        show (es ++ [t]).get? (st.add_without_dup_check t).1 = some t
        rw [h1, get?_append_len]
        rfl
    obtain ⟨more1, hst2, hlen2, hget2⟩ := ih hst1
    obtain ⟨d, hd⟩ : ∃ d, es1 = es ++ d := by
      rcases hext1 with h1 | h1
      · exact ⟨[], by simp [h1]⟩
      · exact ⟨[op.text], by simpa using h1⟩
    refine ⟨d ++ more1, ?_, ?_, ?_⟩
    · rw [hsnd, ← List.append_assoc, ← hd]
      exact hst2
    · rw [hfst]
      simp [hlen2]
    · intro k o i hop hi
      rw [← List.append_assoc, ← hd]
      cases k with
      | zero =>
        have hopo : op = o := by
          have h' : some op = some o := hop
          injection h'
        subst hopo
        have hio : (st.runOp op).1 = i := by
          have h' : some (st.runOp op).1 = some i := by
            rw [← hi, hfst]
            rfl
          injection h'
        rw [← hio]
        rw [get?_append_lt more1 (get?_some_lt hget1)]
        exact hget1
      | succ k =>
        have hik : ((st.runOp op).2.runOps ops).1.get? k = some i := by
          rw [← hi, hfst]
          rfl
        exact hget2 k o i hop hik

/-! ## `layer_builder_impl`

Field tags of `detail::pbf_layer`: `version = 15`, `name = 1`,
`features = 2`, `keys = 3`, `values = 4`, `extent = 5`.  The `types.hpp`
header is not among the sources at hand; the v3 table tags
(`string_values`, `double_values`, `float_values`, `int_values`) are
modelled from the spec, which says they follow the MVT v3 draft — their
concrete numbers (6, 7, 8, 9 here) do not affect any property proved
below. -/

/-- Bytes written by `pbf_builder::add_uint32(tag, v)`: key varint with
wire type 0, then the value varint. -/
def encodeVarintField (tag value : Nat) : List Nat :=
  varintEncode (tag * 8) ++ varintEncode value

/-- Little-endian byte serialization of a `k`-byte machine scalar given
by its bit pattern (wrap-around modulo `2 ^ (8 * k)` is explicit in the
truncation below). -/
def toLEBytes : Nat → Nat → List Nat
  | 0, _ => []
  | k + 1, v => (v % 256) :: toLEBytes k (v / 256)

/-- The state of a `layer_builder_impl`.  Floating-point table entries
are carried as their IEEE-754 bit patterns (`Nat` below `2^64` resp.
`2^32`). -/
structure LayerBuilderImpl where
  m_data : List Nat
  m_keys_table : StringTable
  m_values_table : StringTable
  m_string_values_table : StringTable
  m_double_values : List Nat
  m_float_values : List Nat
  m_int_values : List Nat
  m_num_features : Nat
  m_version : Nat
  deriving DecidableEq, Repr

/-- The `layer_builder_impl(name, version, extent)` constructor: writes
`version`, `name`, `extent` into the layer buffer, in that order. -/
def layerBuilderImpl (name : List Nat) (version extent : Nat) : LayerBuilderImpl :=
  { m_data := encodeVarintField 15 version ++ encodeStringField 1 name ++
      encodeVarintField 5 extent
    m_keys_table := StringTable.fresh 3
    m_values_table := StringTable.fresh 4
    m_string_values_table := StringTable.fresh 6
    m_double_values := []
    m_float_values := []
    m_int_values := []
    m_num_features := 0
    m_version := version }

/-- `layer_builder_impl::version()`. -/
def LayerBuilderImpl.version (lb : LayerBuilderImpl) : Nat :=
  lb.m_version

/-- `layer_builder_impl::add_key_without_dup_check`. -/
def LayerBuilderImpl.add_key_without_dup_check (lb : LayerBuilderImpl)
    (text : List Nat) : Nat × LayerBuilderImpl :=
  let (i, kt) := lb.m_keys_table.add_without_dup_check text
  (i, { lb with m_keys_table := kt })

/-- `layer_builder_impl::add_key`. -/
def LayerBuilderImpl.add_key (lb : LayerBuilderImpl) (text : List Nat) :
    Nat × LayerBuilderImpl :=
  let (i, kt) := lb.m_keys_table.add text
  (i, { lb with m_keys_table := kt })

/-- `layer_builder_impl::add_value(property_value)` — the argument is
the pre-encoded property-value byte string (`value.data()`).  The
`vtzero_assert(m_version < 3)` is modelled by returning `none` (fatal
assertion) when it does not hold. -/
def LayerBuilderImpl.add_value (lb : LayerBuilderImpl) (data : List Nat) :
    Option (Nat × LayerBuilderImpl) :=
  if lb.m_version < 3 then
    let (i, vt) := lb.m_values_table.add data
    some (i, { lb with m_values_table := vt })
  else none

/-- `layer_builder_impl::add_value_without_dup_check(property_value)`. -/
def LayerBuilderImpl.add_value_without_dup_check (lb : LayerBuilderImpl)
    (data : List Nat) : Option (Nat × LayerBuilderImpl) :=
  if lb.m_version < 3 then
    let (i, vt) := lb.m_values_table.add_without_dup_check data
    some (i, { lb with m_values_table := vt })
  else none

/-- `layer_builder_impl::add_string_value` (v3 only). -/
def LayerBuilderImpl.add_string_value (lb : LayerBuilderImpl)
    (value : List Nat) : Option (Nat × LayerBuilderImpl) :=
  if lb.m_version = 3 then
    let (i, svt) := lb.m_string_values_table.add value
    some (i, { lb with m_string_values_table := svt })
  else none

/-- `layer_builder_impl::add_string_value_without_dup_check` (v3 only). -/
def LayerBuilderImpl.add_string_value_without_dup_check (lb : LayerBuilderImpl)
    (value : List Nat) : Option (Nat × LayerBuilderImpl) :=
  if lb.m_version = 3 then
    let (i, svt) := lb.m_string_values_table.add_without_dup_check value
    some (i, { lb with m_string_values_table := svt })
  else none

/-- `std::find` over a typed vector, as the zero-based index of the
first element satisfying the element comparison (`std::distance` from
`cbegin` to the iterator); `none` when the scan reaches `cend`. -/
def vecFind (p : Nat → Bool) : List Nat → Option Nat
  | [] => none
  | x :: xs => if p x then some 0 else (vecFind p xs).map (· + 1)

/-! ### IEEE-754 equality on bit patterns

`std::find` on `std::vector<double>` / `std::vector<float>` compares
elements with the built-in `operator==` of the element type, i.e. IEEE
equality: NaN compares unequal to everything (itself included), positive
and negative zero compare equal, and all other values compare equal
exactly when their bit patterns coincide. -/

/-- NaN test on a 64-bit double bit pattern: exponent all ones,
non-zero mantissa. -/
def doubleIsNaN (a : Nat) : Bool :=
  decide ((a / 2 ^ 52) % 2 ^ 11 = 2 ^ 11 - 1 ∧ a % 2 ^ 52 ≠ 0)

/-- Zero test on a 64-bit double bit pattern (either signed zero). -/
def doubleIsZero (a : Nat) : Bool :=
  decide (a % 2 ^ 63 = 0)

/-- IEEE `operator==` on 64-bit double bit patterns. -/
def doubleEq (a b : Nat) : Bool :=
  if doubleIsNaN a || doubleIsNaN b then false
  else if doubleIsZero a && doubleIsZero b then true
  else decide (a = b)

/-- NaN test on a 32-bit float bit pattern. -/
def floatIsNaN (a : Nat) : Bool :=
  decide ((a / 2 ^ 23) % 2 ^ 8 = 2 ^ 8 - 1 ∧ a % 2 ^ 23 ≠ 0)

/-- Zero test on a 32-bit float bit pattern. -/
def floatIsZero (a : Nat) : Bool :=
  decide (a % 2 ^ 31 = 0)

/-- IEEE `operator==` on 32-bit float bit patterns. -/
def floatEq (a b : Nat) : Bool :=
  if floatIsNaN a || floatIsNaN b then false
  else if floatIsZero a && floatIsZero b then true
  else decide (a = b)

/-- `layer_builder_impl::add_double_value_without_dup_check` (v3 only):
push and return the new last position. -/
def LayerBuilderImpl.add_double_value_without_dup_check (lb : LayerBuilderImpl)
    (value : Nat) : Option (Nat × LayerBuilderImpl) :=
  if lb.m_version = 3 then
    some (lb.m_double_values.length,
      { lb with m_double_values := lb.m_double_values ++ [value] })
  else none

/-- `layer_builder_impl::add_double_value` (v3 only): `std::find` over
the typed vector using IEEE equality, append on a miss. -/
def LayerBuilderImpl.add_double_value (lb : LayerBuilderImpl) (value : Nat) :
    Option (Nat × LayerBuilderImpl) :=
  if lb.m_version = 3 then
    match vecFind (fun x => doubleEq x value) lb.m_double_values with
    | some i => some (i, lb)
    | none => lb.add_double_value_without_dup_check value
  else none

/-- `layer_builder_impl::add_float_value_without_dup_check` (v3 only). -/
def LayerBuilderImpl.add_float_value_without_dup_check (lb : LayerBuilderImpl)
    (value : Nat) : Option (Nat × LayerBuilderImpl) :=
  if lb.m_version = 3 then
    some (lb.m_float_values.length,
      { lb with m_float_values := lb.m_float_values ++ [value] })
  else none

/-- `layer_builder_impl::add_float_value` (v3 only). -/
def LayerBuilderImpl.add_float_value (lb : LayerBuilderImpl) (value : Nat) :
    Option (Nat × LayerBuilderImpl) :=
  if lb.m_version = 3 then
    match vecFind (fun x => floatEq x value) lb.m_float_values with
    | some i => some (i, lb)
    | none => lb.add_float_value_without_dup_check value
  else none

/-- `layer_builder_impl::add_int_value_without_dup_check` (v3 only). -/
def LayerBuilderImpl.add_int_value_without_dup_check (lb : LayerBuilderImpl)
    (value : Nat) : Option (Nat × LayerBuilderImpl) :=
  if lb.m_version = 3 then
    some (lb.m_int_values.length,
      { lb with m_int_values := lb.m_int_values ++ [value] })
  else none

/-- `layer_builder_impl::add_int_value` (v3 only): `std::find` over the
`uint64_t` vector, i.e. exact equality. -/
def LayerBuilderImpl.add_int_value (lb : LayerBuilderImpl) (value : Nat) :
    Option (Nat × LayerBuilderImpl) :=
  if lb.m_version = 3 then
    match vecFind (fun x => x == value) lb.m_int_values with
    | some i => some (i, lb)
    | none => lb.add_int_value_without_dup_check value
  else none

/-- `layer_builder_impl::increment_feature_count`. -/
def LayerBuilderImpl.increment_feature_count (lb : LayerBuilderImpl) :
    LayerBuilderImpl :=
  { lb with m_num_features := lb.m_num_features + 1 }

/-- `layer_builder_impl::build`: contribute nothing when the layer holds
no feature, otherwise emit one `layers` field (tag 3) of the tile whose
payload is the layer buffer followed by the table buffers (and, for v3,
the string-value table and the non-empty packed numeric tables). -/
def LayerBuilderImpl.build (lb : LayerBuilderImpl) : List Nat :=
  if lb.m_num_features > 0 then
    if lb.m_version < 3 then
      encodeStringField 3
        (lb.m_data ++ lb.m_keys_table.m_data ++ lb.m_values_table.m_data)
    else
      let values_tables_data :=
        (if lb.m_double_values.isEmpty then []
         else encodeStringField 7 (catList (lb.m_double_values.map (toLEBytes 8)))) ++
        (if lb.m_float_values.isEmpty then []
         else encodeStringField 8 (catList (lb.m_float_values.map (toLEBytes 4)))) ++
        (if lb.m_int_values.isEmpty then []
         else encodeStringField 9 (catList (lb.m_int_values.map varintEncode)))
      encodeStringField 3
        (lb.m_data ++ lb.m_keys_table.m_data ++
         lb.m_string_values_table.m_data ++ values_tables_data)
  else []

/-! ## The tile builder

`layer_builder_existing::build` writes the borrowed byte range as one
`layers` field.  The surrounding `tile_builder` (its header is not among
the sources at hand) is modelled from the spec: it owns the registered
layer builds and serializes them in insertion order. -/

/-- A registered layer of a tile builder: a fresh `layer_builder_impl`
or a `layer_builder_existing` wrapping pre-encoded layer bytes. -/
inductive LayerBuild where
  | fresh (lb : LayerBuilderImpl)
  | existing (data : List Nat)
  deriving DecidableEq, Repr

/-- The bytes a registered layer contributes to the tile:
`layer_builder_impl::build` resp. `layer_builder_existing::build`
(`add_bytes(pbf_tile::layers, m_data)`). -/
def LayerBuild.buildBytes : LayerBuild → List Nat
  | .fresh lb => lb.build
  | .existing data => encodeStringField 3 data

/-- Modelled from the spec: `tile_builder::serialize()` — "For each
registered layer in insertion order: if it is existing, emit
`layers = <bytes>`; else ask the fresh layer to emit itself only if its
feature count is > 0". -/
def tileSerialize (layers : List LayerBuild) : List Nat :=
  catList (layers.map LayerBuild.buildBytes)

/-- Modelled from the spec: decoding a tile into its layer byte ranges —
"the serialized form is the concatenation of layer records, each tagged
as field `layers` in the tile message" (tag 3, wire type 2).  Structural
in a fuel argument, exact for any fuel of at least `data.length`. -/
def decodeTileLayersAux : Nat → List Nat → Option (List (List Nat))
  | _, [] => some []
  | 0, _ :: _ => none
  | fuel + 1, data =>
      match parseVarint data with
      | none => none
      | some (key, r1) =>
          if key = 3 * 8 + 2 then
            match parseVarint r1 with
            | none => none
            | some (len, r2) =>
                if len ≤ r2.length then
                  match decodeTileLayersAux fuel (r2.drop len) with
                  | none => none
                  | some ls => some (r2.take len :: ls)
                else none
          else none

/-- Decode a tile byte string into its layers. -/
def decodeTileLayers (data : List Nat) : Option (List (List Nat)) :=
  decodeTileLayersAux data.length data

theorem decodeTileLayersAux_roundTrip (ls : List (List Nat)) :
    ∀ fuel, (tileSerialize (ls.map LayerBuild.existing)).length ≤ fuel →
    decodeTileLayersAux fuel (tileSerialize (ls.map LayerBuild.existing)) = some ls := by
  induction ls with
  | nil =>
    intro fuel _
    show decodeTileLayersAux fuel [] = some []
    cases fuel <;> rfl
  | cons l ls ih =>
    intro fuel hfuel
    have hdata : tileSerialize ((l :: ls).map LayerBuild.existing) =
        encodeStringField 3 l ++ tileSerialize (ls.map LayerBuild.existing) := rfl
    have hfield : encodeStringField 3 l =
        varintEncode 26 ++ (varintEncode l.length ++ l) := by
      show varintEncode (3 * 8 + 2) ++ varintEncode l.length ++ l = _
      rw [List.append_assoc]
    have hfield_len : 1 ≤ (encodeStringField 3 l).length := by
      rw [hfield]
      cases hv : varintEncode 26 with
      | nil =>
        have := parseVarint_varintEncode 26 []
        rw [hv] at this
        simp [parseVarint] at this
      | cons a b => simp
    have hlen : (tileSerialize ((l :: ls).map LayerBuild.existing)).length =
        (encodeStringField 3 l).length +
        (tileSerialize (ls.map LayerBuild.existing)).length := by
      rw [hdata, List.length_append]
    obtain ⟨f, rfl⟩ : ∃ f, fuel = f + 1 := by
      cases fuel with
      | zero => omega
      | succ f => exact ⟨f, rfl⟩
    obtain ⟨b, bs, hcons⟩ : ∃ b bs,
        tileSerialize ((l :: ls).map LayerBuild.existing) = b :: bs := by
      cases hd : tileSerialize ((l :: ls).map LayerBuild.existing) with
      | nil =>
        rw [hd] at hlen
        simp at hlen
        omega
      | cons b bs => exact ⟨b, bs, rfl⟩
    rw [hcons, decodeTileLayersAux, ← hcons, hdata, hfield, List.append_assoc,
      parseVarint_varintEncode]
    · have hle : l.length ≤ (l ++ tileSerialize (ls.map LayerBuild.existing)).length := by
        simp
      simp only [List.append_assoc, parseVarint_varintEncode, List.take_left,
        List.drop_left, ih f (by omega), hle, if_true, reduceIte]
    · simp

theorem decodeTileLayers_roundTrip (ls : List (List Nat)) :
    decodeTileLayers (tileSerialize (ls.map LayerBuild.existing)) = some ls :=
  decodeTileLayersAux_roundTrip ls _ le_rfl

/-! ## The feature builder state machine

Modelled from the spec (§4.4): the `feature_builder` headers are not
among the sources at hand.  States are
`INIT → ID_SET? → GEOM_SET → ATTRS_SET? → DONE`; on construction the
builder captures the layer buffer length and the feature count; ops
append field bytes to the parent layer buffer; `commit` (legal from
`GEOM_SET`/`ATTRS_SET`, a no-op from `DONE`) closes the feature record
and increments the feature count; `rollback` truncates the buffer back
to the construction mark.  Fatal assertions are modelled as `none`.
Attribute interning is elided: it touches only the key/value tables,
never the layer buffer. -/

inductive FBState where
  | init | idSet | geomSet | attrsSet | done
  deriving DecidableEq, Repr

/-- The per-feature builder state: the state-machine state, the layer
buffer length captured at construction, and the feature count captured
at construction. -/
structure FeatureBuilder where
  m_state : FBState
  m_mark : Nat
  m_count_mark : Nat
  deriving DecidableEq, Repr

/-- Construct a feature builder on a layer: capture the current buffer
length and feature count. -/
def featureBuilderNew (lb : LayerBuilderImpl) : FeatureBuilder :=
  { m_state := .init, m_mark := lb.m_data.length, m_count_mark := lb.m_num_features }

/-- Zig-zag encoding of a signed coordinate delta. -/
def zigzag (n : Int) : Nat :=
  if 0 ≤ n then 2 * n.toNat else 2 * (-n).toNat - 1

/-- A body operation of a feature build. -/
inductive FOp where
  | set_integer_id (id : Nat)
  | set_string_id (s : List Nat)
  | add_point (x y : Int)
  | add_property (key value : List Nat)
  deriving DecidableEq, Repr

/-- The bytes an operation appends to the layer buffer (feature message
fields: `id` = 1 varint, `tags` = 2, `type` = 3, `geometry` = 4 packed;
the v3 `string_id` tag is modelled from the spec as a length-delimited
field). -/
def opBytes : FOp → List Nat
  | .set_integer_id id => encodeVarintField 1 id
  | .set_string_id s => encodeStringField 10 s
  | .add_point x y =>
      encodeVarintField 3 1 ++
      encodeStringField 4 (catList ([9, zigzag x, zigzag y].map varintEncode))
  | .add_property key value => encodeStringField 2 (key ++ value)

/-- Run one body operation: check the state-machine transition (fatal
assertion = `none`), append the field bytes to the layer buffer. -/
def FeatureBuilder.runOp (fb : FeatureBuilder) (lb : LayerBuilderImpl) :
    FOp → Option (FeatureBuilder × LayerBuilderImpl)
  | .set_integer_id id =>
      if fb.m_state = .init then
        some ({ fb with m_state := .idSet },
              { lb with m_data := lb.m_data ++ opBytes (.set_integer_id id) })
      else none
  | .set_string_id s =>
      if fb.m_state = .init ∧ lb.m_version = 3 then
        some ({ fb with m_state := .idSet },
              { lb with m_data := lb.m_data ++ opBytes (.set_string_id s) })
      else none
  | .add_point x y =>
      if fb.m_state = .init ∨ fb.m_state = .idSet ∨ fb.m_state = .geomSet then
        some ({ fb with m_state := .geomSet },
              { lb with m_data := lb.m_data ++ opBytes (.add_point x y) })
      else none
  | .add_property key value =>
      if fb.m_state = .geomSet ∨ fb.m_state = .attrsSet then
        some ({ fb with m_state := .attrsSet },
              { lb with m_data := lb.m_data ++ opBytes (.add_property key value) })
      else none

/-- `commit()`: requires `GEOM_SET` or later; closes the feature record
(the bytes appended since construction become one `features` field of
the layer) and increments the feature count; a no-op from `DONE`; a
fatal assertion (`none`) from `INIT` or `ID_SET`. -/
def FeatureBuilder.commit (fb : FeatureBuilder) (lb : LayerBuilderImpl) :
    Option (FeatureBuilder × LayerBuilderImpl) :=
  match fb.m_state with
  | .geomSet | .attrsSet =>
      some ({ fb with m_state := .done },
            { lb with
              m_data := lb.m_data.take fb.m_mark ++
                encodeStringField 2 (lb.m_data.drop fb.m_mark)
              m_num_features := lb.m_num_features + 1 })
  | .done => some (fb, lb)
  | _ => none

/-- `rollback()`: truncate the layer buffer back to the construction
mark; a no-op from `DONE`; never increments the feature count. -/
def FeatureBuilder.rollback (fb : FeatureBuilder) (lb : LayerBuilderImpl) :
    FeatureBuilder × LayerBuilderImpl :=
  if fb.m_state = .done then (fb, lb)
  else ({ fb with m_state := .done }, { lb with m_data := lb.m_data.take fb.m_mark })

/-- Run a list of body operations. -/
def FeatureBuilder.runOps :
    FeatureBuilder × LayerBuilderImpl → List FOp →
    Option (FeatureBuilder × LayerBuilderImpl)
  | p, [] => some p
  | (fb, lb), op :: ops =>
      match fb.runOp lb op with
      | none => none
      | some p' => FeatureBuilder.runOps p' ops

/-- One complete feature build: body operations followed by exactly one
commit (`endsCommitted = true`) or rollback (`false`). -/
structure FeatureScript where
  ops : List FOp
  endsCommitted : Bool
  deriving DecidableEq, Repr

/-- Run one feature build on a layer. -/
def runFeatureScript (lb : LayerBuilderImpl) (s : FeatureScript) :
    Option LayerBuilderImpl :=
  match FeatureBuilder.runOps (featureBuilderNew lb, lb) s.ops with
  | none => none
  | some (fb', lb') =>
      if s.endsCommitted then (fb'.commit lb').map (·.2)
      else some (fb'.rollback lb').2

/-- Run a sequence of feature builds on a layer. -/
def runFeatureScripts (lb : LayerBuilderImpl) :
    List FeatureScript → Option LayerBuilderImpl
  | [] => some lb
  | s :: ss =>
      match runFeatureScript lb s with
      | none => none
      | some lb' => runFeatureScripts lb' ss

/-- The feature-message payload a feature build appends. -/
def scriptPayload (s : FeatureScript) : List Nat :=
  catList (s.ops.map opBytes)

/-- The payloads of the committed builds, in commit order. -/
def committedPayloads (ss : List FeatureScript) : List (List Nat) :=
  (ss.filter (·.endsCommitted)).map scriptPayload

/-! ### `vecFind` characterization and IEEE-equality lemmas -/

theorem vecFind_get {p : Nat → Bool} {l : List Nat} {i : Nat}
    (h : vecFind p l = some i) : ∃ a, l.get? i = some a ∧ p a = true := by
  induction l generalizing i with
  | nil => simp [vecFind] at h
  | cons x xs ih =>
    simp only [vecFind] at h
    by_cases hx : p x = true
    · simp only [hx, if_true, Option.some.injEq] at h
      subst h
      exact ⟨x, rfl, hx⟩
    · rw [if_neg (by simpa using hx)] at h
      obtain ⟨j, hj, hji⟩ := Option.map_eq_some'.mp h
      subst hji
      obtain ⟨a, ha, hpa⟩ := ih hj
      exact ⟨a, by simpa using ha, hpa⟩

theorem vecFind_eq_none_iff {p : Nat → Bool} {l : List Nat} :
    vecFind p l = none ↔ ∀ a ∈ l, p a = false := by
  induction l with
  | nil => simp [vecFind]
  | cons x xs ih =>
    by_cases hx : p x = true
    · simp [vecFind, hx]
    · have hx' : p x = false := by simpa using hx
      simp [vecFind, hx', Option.map_eq_none', ih]

theorem vecFind_append_of_none {p : Nat → Bool} {l : List Nat}
    (x : Nat) (h : vecFind p l = none) :
    vecFind p (l ++ [x]) = if p x then some l.length else none := by
  induction l with
  | nil => simp [vecFind]
  | cons y ys ih =>
    simp only [vecFind] at h
    by_cases hy : p y = true
    · simp [hy] at h
    · have hy' : p y = false := by simpa using hy
      rw [if_neg (by simp [hy'])] at h
      have hnone : vecFind p ys = none := Option.map_eq_none'.mp h
      show (if p y = true then some 0 else (vecFind p (ys ++ [x])).map (· + 1)) =
        if p x = true then some (ys.length + 1) else none
      rw [if_neg (by simp [hy']), ih hnone]
      by_cases hx : p x = true
      · simp [hx]
      · have hx' : p x = false := by simpa using hx
        simp [hx']

theorem vecFind_congr {p q : Nat → Bool} (h : ∀ a, p a = q a) (l : List Nat) :
    vecFind p l = vecFind q l := by
  induction l with
  | nil => rfl
  | cons x xs ih =>
    show (if p x = true then some 0 else (vecFind p xs).map (· + 1)) =
      (if q x = true then some 0 else (vecFind q xs).map (· + 1))
    rw [h x, ih]

theorem doubleEq_of_nan_right {a v : Nat} (h : doubleIsNaN v = true) :
    doubleEq a v = false := by
  unfold doubleEq
  rw [h]
  simp

theorem doubleEq_refl_of_not_nan {v : Nat} (h : doubleIsNaN v = false) :
    doubleEq v v = true := by
  unfold doubleEq
  rw [h]
  by_cases hz : doubleIsZero v = true
  · simp [hz]
  · have hz' : doubleIsZero v = false := by simpa using hz
    simp [hz']

theorem doubleEq_congr {v v' : Nat} (h : doubleEq v v' = true) (a : Nat) :
    doubleEq a v = doubleEq a v' := by
  have hnv : doubleIsNaN v = false := by
    by_contra hc
    have hct : doubleIsNaN v = true := by simpa using hc
    simp [doubleEq, hct] at h
  have hnv' : doubleIsNaN v' = false := by
    by_contra hc
    have hct : doubleIsNaN v' = true := by simpa using hc
    simp [doubleEq, hct] at h
  by_cases hna : doubleIsNaN a = true
  · simp [doubleEq, hna]
  have hna0 : doubleIsNaN a = false := by simpa using hna
  by_cases hzz : (doubleIsZero v && doubleIsZero v') = true
  · have hz12 : doubleIsZero v = true ∧ doubleIsZero v' = true := by simpa using hzz
    by_cases hza : doubleIsZero a = true
    · simp [doubleEq, hna0, hnv, hnv', hz12.1, hz12.2, hza]
    · have hza0 : doubleIsZero a = false := by simpa using hza
      have h1 : a ≠ v := by
        intro heq
        rw [heq, hz12.1] at hza0
        cases hza0
      have h2 : a ≠ v' := by
        intro heq
        rw [heq, hz12.2] at hza0
        cases hza0
      simp [doubleEq, hna0, hnv, hnv', hz12.1, hz12.2, hza0, h1, h2]
  · have hv : v = v' := by
      have hvv := h
      simp [doubleEq, hnv, hnv', hzz] at hvv
      exact hvv
    subst hv
    rfl

theorem floatEq_of_nan_right {a v : Nat} (h : floatIsNaN v = true) :
    floatEq a v = false := by
  unfold floatEq
  rw [h]
  simp

theorem floatEq_refl_of_not_nan {v : Nat} (h : floatIsNaN v = false) :
    floatEq v v = true := by
  unfold floatEq
  rw [h]
  by_cases hz : floatIsZero v = true
  · simp [hz]
  · have hz' : floatIsZero v = false := by simpa using hz
    simp [hz']

theorem floatEq_congr {v v' : Nat} (h : floatEq v v' = true) (a : Nat) :
    floatEq a v = floatEq a v' := by
  have hnv : floatIsNaN v = false := by
    by_contra hc
    have hct : floatIsNaN v = true := by simpa using hc
    simp [floatEq, hct] at h
  have hnv' : floatIsNaN v' = false := by
    by_contra hc
    have hct : floatIsNaN v' = true := by simpa using hc
    simp [floatEq, hct] at h
  by_cases hna : floatIsNaN a = true
  · simp [floatEq, hna]
  have hna0 : floatIsNaN a = false := by simpa using hna
  by_cases hzz : (floatIsZero v && floatIsZero v') = true
  · have hz12 : floatIsZero v = true ∧ floatIsZero v' = true := by simpa using hzz
    by_cases hza : floatIsZero a = true
    · simp [floatEq, hna0, hnv, hnv', hz12.1, hz12.2, hza]
    · have hza0 : floatIsZero a = false := by simpa using hza
      have h1 : a ≠ v := by
        intro heq
        rw [heq, hz12.1] at hza0
        cases hza0
      have h2 : a ≠ v' := by
        intro heq
        rw [heq, hz12.2] at hza0
        cases hza0
      simp [floatEq, hna0, hnv, hnv', hz12.1, hz12.2, hza0, h1, h2]
  · have hv : v = v' := by
      have hvv := h
      simp [floatEq, hnv, hnv', hzz] at hvv
      exact hvv
    subst hv
    rfl

/-- The strong invariant implies the weak one. -/
theorem STSound_of_STWF {st : StringTable} {es : List (List Nat)}
    (h : STWF st es) : STSound st es := by
  obtain ⟨hdata, hnum, hnodup, hidx⟩ := h
  refine ⟨hdata, hnum, ?_, ?_⟩
  · intro t j hj
    rcases hidx with h0 | ⟨-, hc⟩
    · rw [h0] at hj
      cases hj
    · rw [hc t] at hj
      cases hf : firstIdx t es with
      | none =>
        rw [hf] at hj
        cases hj
      | some i =>
        rw [hf] at hj
        simp only [Option.map_some', Option.some.injEq] at hj
        rw [← hj]
        exact firstIdx_get hf
  · intro t hj
    rcases hidx with h0 | ⟨-, hc⟩
    · rw [h0] at hj
      cases hj
    · rw [hc t] at hj
      cases hf : firstIdx t es with
      | none =>
        rw [hf] at hj
        cases hj
      | some i =>
        rw [hf] at hj
        cases hj

theorem FeatureBuilder.runOp_spec {fb : FeatureBuilder} {lb : LayerBuilderImpl}
    {op : FOp} {fb' : FeatureBuilder} {lb' : LayerBuilderImpl}
    (h : fb.runOp lb op = some (fb', lb')) :
    lb'.m_data = lb.m_data ++ opBytes op ∧
    fb'.m_mark = fb.m_mark ∧ fb'.m_count_mark = fb.m_count_mark ∧
    lb'.m_num_features = lb.m_num_features ∧ fb'.m_state ≠ FBState.done := by
  cases op with
  | set_integer_id id =>
    simp only [FeatureBuilder.runOp] at h
    split at h
    · simp only [Option.some.injEq, Prod.mk.injEq] at h
      obtain ⟨hfb, hlb⟩ := h
      subst hfb
      subst hlb
      exact ⟨rfl, rfl, rfl, rfl, by simp⟩
    · cases h
  | set_string_id s =>
    simp only [FeatureBuilder.runOp] at h
    split at h
    · simp only [Option.some.injEq, Prod.mk.injEq] at h
      obtain ⟨hfb, hlb⟩ := h
      subst hfb
      subst hlb
      exact ⟨rfl, rfl, rfl, rfl, by simp⟩
    · cases h
  | add_point x y =>
    simp only [FeatureBuilder.runOp] at h
    split at h
    · simp only [Option.some.injEq, Prod.mk.injEq] at h
      obtain ⟨hfb, hlb⟩ := h
      subst hfb
      subst hlb
      exact ⟨rfl, rfl, rfl, rfl, by simp⟩
    · cases h
  | add_property key value =>
    simp only [FeatureBuilder.runOp] at h
    split at h
    · simp only [Option.some.injEq, Prod.mk.injEq] at h
      obtain ⟨hfb, hlb⟩ := h
      subst hfb
      subst hlb
      exact ⟨rfl, rfl, rfl, rfl, by simp⟩
    · cases h

theorem FeatureBuilder.runOps_fb_spec {ops : List FOp} :
    ∀ {fb : FeatureBuilder} {lb : LayerBuilderImpl}
      {fb' : FeatureBuilder} {lb' : LayerBuilderImpl},
    FeatureBuilder.runOps (fb, lb) ops = some (fb', lb') →
    lb'.m_data = lb.m_data ++ catList (ops.map opBytes) ∧
    fb'.m_mark = fb.m_mark ∧ fb'.m_count_mark = fb.m_count_mark ∧
    lb'.m_num_features = lb.m_num_features ∧
    (fb'.m_state = fb.m_state ∨ fb'.m_state ≠ FBState.done) := by
  induction ops with
  | nil =>
    intro fb lb fb' lb' h
    simp only [FeatureBuilder.runOps, Option.some.injEq, Prod.mk.injEq] at h
    obtain ⟨hfb, hlb⟩ := h
    subst hfb
    subst hlb
    exact ⟨by simp [catList], rfl, rfl, rfl, Or.inl rfl⟩
  | cons op ops ih =>
    intro fb lb fb' lb' h
    simp only [FeatureBuilder.runOps] at h
    cases hop : fb.runOp lb op with
    | none => rw [hop] at h; cases h
    | some p =>
      rw [hop] at h
      obtain ⟨fb1, lb1⟩ := p
      obtain ⟨hs1, hs2, hs3, hs4, hs5⟩ := FeatureBuilder.runOp_spec hop
      obtain ⟨ht1, ht2, ht3, ht4, ht5⟩ := ih h
      refine ⟨?_, ht2.trans hs2, ht3.trans hs3, ht4.trans hs4, ?_⟩
      · rw [ht1, hs1, List.append_assoc]
        rfl
      · rcases ht5 with h5 | h5
        · exact Or.inr (h5 ▸ hs5)
        · exact Or.inr h5

theorem runFeatureScript_commit_spec {lb : LayerBuilderImpl} {s : FeatureScript}
    {lb' : LayerBuilderImpl} (h : runFeatureScript lb s = some lb')
    (hc : s.endsCommitted = true) :
    lb'.m_data = lb.m_data ++ encodeStringField 2 (scriptPayload s) ∧
    lb'.m_num_features = lb.m_num_features + 1 := by
  unfold runFeatureScript at h
  cases hops : FeatureBuilder.runOps (featureBuilderNew lb, lb) s.ops with
  | none => rw [hops] at h; cases h
  | some p =>
    rw [hops] at h
    obtain ⟨fb1, lb1⟩ := p
    obtain ⟨h1, h2, h3, h4, h5⟩ := FeatureBuilder.runOps_fb_spec hops
    simp only [hc, if_true] at h
    have hmark : fb1.m_mark = lb.m_data.length := h2
    cases hstate : fb1.m_state with
    | geomSet =>
      have hcommit : fb1.commit lb1 =
          some ({ fb1 with m_state := .done },
                { lb1 with
                  m_data := lb1.m_data.take fb1.m_mark ++
                    encodeStringField 2 (lb1.m_data.drop fb1.m_mark)
                  m_num_features := lb1.m_num_features + 1 }) := by
        unfold FeatureBuilder.commit
        rw [hstate]
      rw [hcommit] at h
      simp only [Option.map_some', Option.some.injEq] at h
      subst h
      refine ⟨?_, by rw [h4]⟩
      show lb1.m_data.take fb1.m_mark ++ encodeStringField 2 (lb1.m_data.drop fb1.m_mark) = _
      rw [h1, hmark, List.take_left, List.drop_left]
      rfl
    | attrsSet =>
      have hcommit : fb1.commit lb1 =
          some ({ fb1 with m_state := .done },
                { lb1 with
                  m_data := lb1.m_data.take fb1.m_mark ++
                    encodeStringField 2 (lb1.m_data.drop fb1.m_mark)
                  m_num_features := lb1.m_num_features + 1 }) := by
        unfold FeatureBuilder.commit
        rw [hstate]
      rw [hcommit] at h
      simp only [Option.map_some', Option.some.injEq] at h
      subst h
      refine ⟨?_, by rw [h4]⟩
      show lb1.m_data.take fb1.m_mark ++ encodeStringField 2 (lb1.m_data.drop fb1.m_mark) = _
      rw [h1, hmark, List.take_left, List.drop_left]
      rfl
    | init =>
      have : fb1.commit lb1 = none := by
        unfold FeatureBuilder.commit
        rw [hstate]
      rw [this] at h
      cases h
    | idSet =>
      have : fb1.commit lb1 = none := by
        unfold FeatureBuilder.commit
        rw [hstate]
      rw [this] at h
      cases h
    | done =>
      rcases h5 with h5 | h5
      · rw [hstate] at h5
        cases h5
      · exact absurd hstate h5

theorem runFeatureScript_rollback_spec {lb : LayerBuilderImpl} {s : FeatureScript}
    {lb' : LayerBuilderImpl} (h : runFeatureScript lb s = some lb')
    (hc : s.endsCommitted = false) :
    lb'.m_data = lb.m_data ∧ lb'.m_num_features = lb.m_num_features := by
  unfold runFeatureScript at h
  cases hops : FeatureBuilder.runOps (featureBuilderNew lb, lb) s.ops with
  | none => rw [hops] at h; cases h
  | some p =>
    rw [hops] at h
    obtain ⟨fb1, lb1⟩ := p
    obtain ⟨h1, h2, h3, h4, h5⟩ := FeatureBuilder.runOps_fb_spec hops
    simp only [hc, Bool.false_eq_true, if_false] at h
    have hnotdone : fb1.m_state ≠ FBState.done := by
      rcases h5 with h5 | h5
      · rw [h5]
        simp [featureBuilderNew]
      · exact h5
    have hroll : (fb1.rollback lb1).2 = { lb1 with m_data := lb1.m_data.take fb1.m_mark } := by
      unfold FeatureBuilder.rollback
      rw [if_neg hnotdone]
    rw [hroll] at h
    simp only [Option.some.injEq] at h
    subst h
    have hdata : lb1.m_data.take fb1.m_mark = lb.m_data := by
      have hmark : fb1.m_mark = lb.m_data.length := h2
      rw [h1, hmark, List.take_left]
    exact ⟨hdata, h4⟩

theorem runFeatureScripts_spec {ss : List FeatureScript} :
    ∀ {lb lb' : LayerBuilderImpl},
    runFeatureScripts lb ss = some lb' →
    lb'.m_data = lb.m_data ++ encodeTable 2 (committedPayloads ss) ∧
    lb'.m_num_features = lb.m_num_features + (committedPayloads ss).length := by
  induction ss with
  | nil =>
    intro lb lb' h
    simp only [runFeatureScripts, Option.some.injEq] at h
    subst h
    exact ⟨by simp [committedPayloads, encodeTable, catList], by simp [committedPayloads]⟩
  | cons s ss ih =>
    intro lb lb' h
    simp only [runFeatureScripts] at h
    cases hs : runFeatureScript lb s with
    | none => rw [hs] at h; cases h
    | some lb1 =>
      rw [hs] at h
      obtain ⟨ihd, ihn⟩ := ih h
      cases hc : s.endsCommitted with
      | true =>
        obtain ⟨hd, hn⟩ := runFeatureScript_commit_spec hs hc
        have hcp : committedPayloads (s :: ss) = scriptPayload s :: committedPayloads ss := by
          simp [committedPayloads, List.filter_cons, hc]
        refine ⟨?_, ?_⟩
        · rw [ihd, hd, hcp, List.append_assoc]
          rfl
        · rw [ihn, hn, hcp]
          simp only [List.length_cons]
          omega
      | false =>
        obtain ⟨hd, hn⟩ := runFeatureScript_rollback_spec hs hc
        have hcp : committedPayloads (s :: ss) = committedPayloads ss := by
          simp [committedPayloads, List.filter_cons, hc]
        rw [hcp, ← hd, ← hn]
        exact ⟨ihd, ihn⟩

theorem mem_of_get? {α : Type} {l : List α} {i : Nat} {a : α}
    (h : l.get? i = some a) : a ∈ l := by
  induction l generalizing i with
  | nil => simp at h
  | cons b bs ih =>
    cases i with
    | zero =>
      simp only [List.get?, Option.some.injEq] at h
      simp [h]
    | succ i =>
      have : bs.get? i = some a := h
      exact List.mem_cons_of_mem b (ih this)

/-! ## The claims -/

/-- C3: a freshly registered layer whose feature count is zero
contributes no bytes: `build` emits nothing, and `serialize()` of a tile
containing it is byte-equal to `serialize()` of the same tile without
it. -/
theorem claim_empty_layer_suppression (lb : LayerBuilderImpl)
    (h : lb.m_num_features = 0) :
    lb.build = [] ∧
    ∀ pre post : List LayerBuild,
      tileSerialize (pre ++ [LayerBuild.fresh lb] ++ post) =
        tileSerialize (pre ++ post) := by
  have hb : lb.build = [] := by
    unfold LayerBuilderImpl.build
    rw [h]
    simp
  refine ⟨hb, ?_⟩
  intro pre post
  unfold tileSerialize
  rw [List.map_append, List.map_append, List.map_append, catList_append,
    catList_append, catList_append]
  have hone : catList ([LayerBuild.fresh lb].map LayerBuild.buildBytes) = [] := by
    simp [catList, LayerBuild.buildBytes, hb]
  rw [hone]
  simp

def lbC3 : LayerBuilderImpl := layerBuilderImpl [120] 2 4096

theorem claim_empty_layer_suppression_witness :
    lbC3.m_num_features = 0 ∧ lbC3.build = [] ∧
    tileSerialize ([LayerBuild.existing [1]] ++ [LayerBuild.fresh lbC3] ++ []) =
      tileSerialize ([LayerBuild.existing [1]] ++ []) :=
  ⟨by decide, (claim_empty_layer_suppression lbC3 (by decide)).1,
   (claim_empty_layer_suppression lbC3 (by decide)).2 [LayerBuild.existing [1]] []⟩

/-- C4: for every valid tile byte string (per the spec's data model, the
concatenation of `layers` field records), decoding it into its layers
and re-encoding them through `add_existing_layer` serializes to the
original bytes. -/
theorem claim_roundtrip_existing_layers (T : List Nat)
    (h : ∃ ls0 : List (List Nat), T = tileSerialize (ls0.map LayerBuild.existing)) :
    ∃ ls, decodeTileLayers T = some ls ∧
      tileSerialize (ls.map LayerBuild.existing) = T := by
  obtain ⟨ls0, rfl⟩ := h
  exact ⟨ls0, decodeTileLayers_roundTrip ls0, rfl⟩

def tileT0 : List Nat := tileSerialize ([[1, 2], [3]].map LayerBuild.existing)

theorem claim_roundtrip_existing_layers_witness :
    decodeTileLayers tileT0 = some [[1, 2], [3]] ∧
    tileSerialize ([[1, 2], [3]].map LayerBuild.existing) = tileT0 := by
  obtain ⟨ls, h1, h2⟩ := claim_roundtrip_existing_layers tileT0 ⟨[[1, 2], [3]], rfl⟩
  have hdec : decodeTileLayers tileT0 = some [[1, 2], [3]] := by decide
  have hls : ls = [[1, 2], [3]] := by
    rw [hdec] at h1
    injection h1 with h1
    exact h1.symm
  subst hls
  exact ⟨h1, h2⟩

/-- C5: the two-phase interning table (linear scan below 20 entries, map
populated from the serialized bytes at the 20th entry) is observably
equivalent — same sequence of returned indices, same serialized table
bytes — to the spec's comparison implementation that uses the map from
the start, for every sequence of deduplicating adds (`add_key` is
exactly such a run on the keys table). -/
theorem claim_interning_threshold (tag : Nat) (ts : List (List Nat)) :
    ((StringTable.fresh tag).runAdds ts).1 =
      ((MapFromStartTable.fresh tag).runAdds ts).1 ∧
    ((StringTable.fresh tag).runAdds ts).2.m_data =
      ((MapFromStartTable.fresh tag).runAdds ts).2.m_data := by
  obtain ⟨ha1, ha2, ha3⟩ := STWF.runAdds_strong_spec (STWF.fresh_strong tag) ts
  obtain ⟨hb1, hb2, hb3⟩ := MFWF.runAdds_mf_spec (MFWF.fresh_mf tag) ts
  refine ⟨ha1.trans hb1.symm, ?_⟩
  rw [ha2.data_eq, hb2.data_eq, ha3, hb3]
  rfl

/-- C1: for every sequence of feature builds each ending in exactly one
commit or rollback, the serialized layer contains exactly the committed
features, in commit order (the feature records parsed from the region
appended to the layer buffer are the committed payloads), the feature
count grows by the number of commits; and immediately after any
rollback the layer buffer equals (hence has the length of) the buffer
captured at feature-builder construction. -/
theorem claim_rollback_atomicity :
    (∀ (lb : LayerBuilderImpl) (ss : List FeatureScript) (lb' : LayerBuilderImpl),
      runFeatureScripts lb ss = some lb' →
      lb'.m_data = lb.m_data ++ encodeTable 2 (committedPayloads ss) ∧
      parseEntries (lb'.m_data.drop lb.m_data.length) = some (committedPayloads ss) ∧
      lb'.m_num_features = lb.m_num_features + (committedPayloads ss).length) ∧
    (∀ (lb : LayerBuilderImpl) (ops : List FOp) (fb1 : FeatureBuilder)
      (lb1 : LayerBuilderImpl),
      FeatureBuilder.runOps (featureBuilderNew lb, lb) ops = some (fb1, lb1) →
      ((fb1.rollback lb1).2).m_data = lb.m_data ∧
      ((fb1.rollback lb1).2).m_data.length = lb.m_data.length ∧
      ((fb1.rollback lb1).2).m_num_features = lb.m_num_features) := by
  constructor
  · intro lb ss lb' h
    obtain ⟨hd, hn⟩ := runFeatureScripts_spec h
    refine ⟨hd, ?_, hn⟩
    rw [hd, List.drop_left]
    exact parseEntries_encodeTable 2 _
  · intro lb ops fb1 lb1 h
    obtain ⟨h1, h2, h3, h4, h5⟩ := FeatureBuilder.runOps_fb_spec h
    have hnotdone : fb1.m_state ≠ FBState.done := by
      rcases h5 with h5 | h5
      · rw [h5]
        simp [featureBuilderNew]
      · exact h5
    have hroll : (fb1.rollback lb1).2 =
        { lb1 with m_data := lb1.m_data.take fb1.m_mark } := by
      unfold FeatureBuilder.rollback
      rw [if_neg hnotdone]
    rw [hroll]
    have hdata : lb1.m_data.take fb1.m_mark = lb.m_data := by
      have hmark : fb1.m_mark = lb.m_data.length := h2
      rw [h1, hmark, List.take_left]
    refine ⟨hdata, ?_, h4⟩
    show (lb1.m_data.take fb1.m_mark).length = lb.m_data.length
    rw [hdata]

def lbC1 : LayerBuilderImpl := layerBuilderImpl [116] 2 4096

def ssC1 : List FeatureScript :=
  [⟨[FOp.set_integer_id 1, FOp.add_point 10 10], true⟩,
   ⟨[FOp.set_integer_id 2], false⟩,
   ⟨[FOp.set_integer_id 8, FOp.add_point 30 30], true⟩]

def lbC1x : LayerBuilderImpl := (runFeatureScripts lbC1 ssC1).getD lbC1

def opsC1 : List FOp := [FOp.set_integer_id 5, FOp.add_point 3 4]

def pC1 : FeatureBuilder × LayerBuilderImpl :=
  (FeatureBuilder.runOps (featureBuilderNew lbC1, lbC1) opsC1).getD
    (featureBuilderNew lbC1, lbC1)

theorem claim_rollback_atomicity_witness :
    runFeatureScripts lbC1 ssC1 = some lbC1x ∧
    lbC1x.m_num_features = lbC1.m_num_features + (committedPayloads ssC1).length ∧
    FeatureBuilder.runOps (featureBuilderNew lbC1, lbC1) opsC1 = some (pC1.1, pC1.2) ∧
    ((pC1.1.rollback pC1.2).2).m_data = lbC1.m_data := by
  have h1 : runFeatureScripts lbC1 ssC1 = some lbC1x := by decide
  have h2 : FeatureBuilder.runOps (featureBuilderNew lbC1, lbC1) opsC1 =
      some (pC1.1, pC1.2) := by decide
  exact ⟨h1, (claim_rollback_atomicity.1 lbC1 ssC1 lbC1x h1).2.2,
    h2, (claim_rollback_atomicity.2 lbC1 opsC1 pC1.1 pC1.2 h2).1⟩

/-- C7: `commit()` succeeds exactly when the feature builder is in state
`GEOM_SET` or later (`ATTRS_SET`, or the no-op from `DONE`); from `INIT`
or `ID_SET` it is a fatal assertion and no feature is added; from
`GEOM_SET`/`ATTRS_SET` it increments the feature count.  In particular a
feature build committing immediately, or after only setting an id,
fails. -/
theorem claim_commit_requires_geometry :
    ∀ (fb : FeatureBuilder) (lb : LayerBuilderImpl),
      (fb.commit lb = none ↔
        (fb.m_state = FBState.init ∨ fb.m_state = FBState.idSet)) ∧
      ((fb.m_state = FBState.geomSet ∨ fb.m_state = FBState.attrsSet) →
        ∃ p, fb.commit lb = some p ∧
          p.2.m_num_features = lb.m_num_features + 1) ∧
      (fb.m_state = FBState.done → fb.commit lb = some (fb, lb)) ∧
      (∀ id, runFeatureScript lb ⟨[], true⟩ = none ∧
        runFeatureScript lb ⟨[FOp.set_integer_id id], true⟩ = none) := by
  intro fb lb
  refine ⟨?_, ?_, ?_, ?_⟩
  · cases hs : fb.m_state <;> simp [FeatureBuilder.commit, hs]
  · intro h
    rcases h with hs | hs
    · exact ⟨({ fb with m_state := .done },
        { lb with
          m_data := lb.m_data.take fb.m_mark ++
            encodeStringField 2 (lb.m_data.drop fb.m_mark)
          m_num_features := lb.m_num_features + 1 }),
        by simp [FeatureBuilder.commit, hs], rfl⟩
    · exact ⟨({ fb with m_state := .done },
        { lb with
          m_data := lb.m_data.take fb.m_mark ++
            encodeStringField 2 (lb.m_data.drop fb.m_mark)
          m_num_features := lb.m_num_features + 1 }),
        by simp [FeatureBuilder.commit, hs], rfl⟩
  · intro hs
    simp [FeatureBuilder.commit, hs]
  · intro id
    exact ⟨rfl, rfl⟩

def lbC7 : LayerBuilderImpl := layerBuilderImpl [116, 55] 2 4096

theorem claim_commit_requires_geometry_witness :
    ((featureBuilderNew lbC7).m_state = FBState.init ∨
      (featureBuilderNew lbC7).m_state = FBState.idSet) ∧
    (featureBuilderNew lbC7).commit lbC7 = none ∧
    runFeatureScript lbC7 ⟨[], true⟩ = none ∧
    runFeatureScript lbC7 ⟨[FOp.set_integer_id 2], true⟩ = none := by
  have h := claim_commit_requires_geometry (featureBuilderNew lbC7) lbC7
  have hst : (featureBuilderNew lbC7).m_state = FBState.init ∨
      (featureBuilderNew lbC7).m_state = FBState.idSet := Or.inl rfl
  exact ⟨hst, h.1.mpr hst, (h.2.2.2 2).1, (h.2.2.2 2).2⟩

/-- C6: version gating — on a layer with version < 3, `set_string_id`
and the v3 value-table operations (`add_string_value`,
`add_double_value`, `add_float_value`, `add_int_value`) fail with a
fatal assertion; on a version-3 layer `add_value` fails; each v3
operation succeeds exactly when the version is 3 (and `add_value`
exactly when it is below 3). -/
theorem claim_version_gating :
    ∀ (lb : LayerBuilderImpl) (fb : FeatureBuilder) (s v : List Nat) (d : Nat),
      (lb.m_version < 3 →
        fb.runOp lb (FOp.set_string_id s) = none ∧
        lb.add_string_value v = none ∧
        lb.add_double_value d = none ∧
        lb.add_float_value d = none ∧
        lb.add_int_value d = none) ∧
      (lb.m_version = 3 → lb.add_value v = none) ∧
      ((∃ p, lb.add_value v = some p) ↔ lb.m_version < 3) ∧
      ((∃ p, lb.add_string_value v = some p) ↔ lb.m_version = 3) ∧
      ((∃ p, lb.add_double_value d = some p) ↔ lb.m_version = 3) ∧
      ((∃ p, lb.add_float_value d = some p) ↔ lb.m_version = 3) ∧
      ((∃ p, lb.add_int_value d = some p) ↔ lb.m_version = 3) := by
  intro lb fb s v d
  refine ⟨?_, ?_, ?_, ?_, ?_, ?_, ?_⟩
  · intro hlt
    have h3 : ¬ lb.m_version = 3 := by omega
    refine ⟨?_, ?_, ?_, ?_, ?_⟩
    · simp only [FeatureBuilder.runOp]
      rw [if_neg (fun hc => h3 hc.2)]
    · unfold LayerBuilderImpl.add_string_value
      rw [if_neg h3]
    · unfold LayerBuilderImpl.add_double_value
      rw [if_neg h3]
    · unfold LayerBuilderImpl.add_float_value
      rw [if_neg h3]
    · unfold LayerBuilderImpl.add_int_value
      rw [if_neg h3]
  · intro h3
    unfold LayerBuilderImpl.add_value
    rw [if_neg (by omega)]
  · constructor
    · rintro ⟨p, hp⟩
      by_contra hge
      unfold LayerBuilderImpl.add_value at hp
      rw [if_neg hge] at hp
      cases hp
    · intro hlt
      unfold LayerBuilderImpl.add_value
      rw [if_pos hlt]
      exact ⟨_, rfl⟩
  · constructor
    · rintro ⟨p, hp⟩
      by_contra h3
      unfold LayerBuilderImpl.add_string_value at hp
      rw [if_neg h3] at hp
      cases hp
    · intro h3
      unfold LayerBuilderImpl.add_string_value
      rw [if_pos h3]
      exact ⟨_, rfl⟩
  · constructor
    · rintro ⟨p, hp⟩
      by_contra h3
      unfold LayerBuilderImpl.add_double_value at hp
      rw [if_neg h3] at hp
      cases hp
    · intro h3
      unfold LayerBuilderImpl.add_double_value
      rw [if_pos h3]
      cases hf : vecFind (fun x => doubleEq x d) lb.m_double_values with
      | some i => exact ⟨(i, lb), rfl⟩
      | none =>
        refine ⟨(lb.m_double_values.length,
          { lb with m_double_values := lb.m_double_values ++ [d] }), ?_⟩
        simp only [hf]
        unfold LayerBuilderImpl.add_double_value_without_dup_check
        rw [if_pos h3]
  · constructor
    · rintro ⟨p, hp⟩
      by_contra h3
      unfold LayerBuilderImpl.add_float_value at hp
      rw [if_neg h3] at hp
      cases hp
    · intro h3
      unfold LayerBuilderImpl.add_float_value
      rw [if_pos h3]
      cases hf : vecFind (fun x => floatEq x d) lb.m_float_values with
      | some i => exact ⟨(i, lb), rfl⟩
      | none =>
        refine ⟨(lb.m_float_values.length,
          { lb with m_float_values := lb.m_float_values ++ [d] }), ?_⟩
        simp only [hf]
        unfold LayerBuilderImpl.add_float_value_without_dup_check
        rw [if_pos h3]
  · constructor
    · rintro ⟨p, hp⟩
      by_contra h3
      unfold LayerBuilderImpl.add_int_value at hp
      rw [if_neg h3] at hp
      cases hp
    · intro h3
      unfold LayerBuilderImpl.add_int_value
      rw [if_pos h3]
      cases hf : vecFind (fun x => x == d) lb.m_int_values with
      | some i => exact ⟨(i, lb), rfl⟩
      | none =>
        refine ⟨(lb.m_int_values.length,
          { lb with m_int_values := lb.m_int_values ++ [d] }), ?_⟩
        simp only [hf]
        unfold LayerBuilderImpl.add_int_value_without_dup_check
        rw [if_pos h3]

def lbC6v2 : LayerBuilderImpl := layerBuilderImpl [116] 2 4096

def lbC6v3 : LayerBuilderImpl := layerBuilderImpl [116] 3 4096

theorem claim_version_gating_witness :
    lbC6v2.m_version < 3 ∧
    (featureBuilderNew lbC6v2).runOp lbC6v2 (FOp.set_string_id [102]) = none ∧
    lbC6v2.add_double_value 19 = none ∧
    lbC6v3.m_version = 3 ∧
    lbC6v3.add_value [32, 19] = none ∧
    (∃ p, lbC6v3.add_double_value 19 = some p) := by
  have h2 := claim_version_gating lbC6v2 (featureBuilderNew lbC6v2) [102] [32, 19] 19
  have h3 := claim_version_gating lbC6v3 (featureBuilderNew lbC6v3) [102] [32, 19] 19
  have hlt : lbC6v2.m_version < 3 := by decide
  have heq : lbC6v3.m_version = 3 := by decide
  exact ⟨hlt, (h2.1 hlt).1, (h2.1 hlt).2.2.1, heq, h3.2.1 heq,
    (h3.2.2.2.2.1).mpr heq⟩

/-- Modelled from the spec (wire-format section, `Value` message): the
pre-encoded property value of `int 19` — `int_value` field 4, varint. -/
def encodedPropertyValueInt19 : List Nat := encodeVarintField 4 19

/-- Modelled from the spec (wire-format section, `Value` message): the
pre-encoded property value of `double 19.0` — `double_value` field 3,
fixed64 little-endian; `19.0` has bit pattern `0x4033000000000000`. -/
def encodedPropertyValueDouble19 : List Nat :=
  varintEncode (3 * 8 + 1) ++ toLEBytes 8 0x4033000000000000

/-- C2: on a fresh layer, `add_key` applied to a pair of texts returns
equal indices exactly when the texts are equal; on a fresh layer with
version below 3, `add_value` applied to a pair of pre-encoded property
values returns equal indices exactly when the encoded bytes are equal —
in particular the encodings of `int 19` and `double 19.0` are distinct,
so they receive distinct indices while two `int 19` additions receive
equal ones. -/
theorem claim_dedup_keys_values (name : List Nat) (version extent : Nat)
    (hver : version < 3) (t1 t2 e1 e2 : List Nat) :
    (((layerBuilderImpl name version extent).add_key t1).1 =
        (((layerBuilderImpl name version extent).add_key t1).2.add_key t2).1 ↔
      t1 = t2) ∧
    (∃ p1 p2, (layerBuilderImpl name version extent).add_value e1 = some p1 ∧
      p1.2.add_value e2 = some p2 ∧ (p1.1 = p2.1 ↔ e1 = e2)) ∧
    encodedPropertyValueInt19 ≠ encodedPropertyValueDouble19 := by
  refine ⟨?_, ?_, by decide⟩
  · show ((StringTable.fresh 3).add t1).1 =
      (((StringTable.fresh 3).add t1).2.add t2).1 ↔ t1 = t2
    obtain ⟨ha1, ha2, -⟩ := STWF.add_strong_spec (STWF.fresh_strong 3) t1
    obtain ⟨hb1, -, -⟩ := STWF.add_strong_spec ha2 t2
    rw [ha1, hb1]
    by_cases heq : t1 = t2
    · subst heq
      simp [addModel, firstIdx]
    · simp [addModel, firstIdx, heq]
  · have hv1 : (layerBuilderImpl name version extent).add_value e1 =
        some (((StringTable.fresh 4).add e1).1,
          { layerBuilderImpl name version extent with
            m_values_table := ((StringTable.fresh 4).add e1).2 }) := by
      unfold LayerBuilderImpl.add_value
      rw [if_pos (show (layerBuilderImpl name version extent).m_version < 3 from hver)]
      rfl
    refine ⟨_, ((((StringTable.fresh 4).add e1).2.add e2).1,
      { layerBuilderImpl name version extent with
        m_values_table := (((StringTable.fresh 4).add e1).2.add e2).2 }), hv1, ?_, ?_⟩
    · show ({ layerBuilderImpl name version extent with
        m_values_table := ((StringTable.fresh 4).add e1).2 }).add_value e2 =
        some ((((StringTable.fresh 4).add e1).2.add e2).1,
          { layerBuilderImpl name version extent with
            m_values_table := (((StringTable.fresh 4).add e1).2.add e2).2 })
      have hv' : ({ layerBuilderImpl name version extent with
          m_values_table := ((StringTable.fresh 4).add e1).2 } : LayerBuilderImpl).m_version < 3 :=
        hver
      unfold LayerBuilderImpl.add_value
      rw [if_pos hv']
    · show ((StringTable.fresh 4).add e1).1 =
        (((StringTable.fresh 4).add e1).2.add e2).1 ↔ e1 = e2
      obtain ⟨ha1, ha2, -⟩ := STWF.add_strong_spec (STWF.fresh_strong 4) e1
      obtain ⟨hb1, -, -⟩ := STWF.add_strong_spec ha2 e2
      rw [ha1, hb1]
      by_cases heq : e1 = e2
      · subst heq
        simp [addModel, firstIdx]
      · simp [addModel, firstIdx, heq]

theorem claim_dedup_keys_values_witness :
    (2 : Nat) < 3 ∧
    ((((layerBuilderImpl [110] 2 4096).add_key [97]).1 =
        (((layerBuilderImpl [110] 2 4096).add_key [97]).2.add_key [98]).1 ↔
       ([97] : List Nat) = [98]) ∧
     (∃ p1 p2,
        (layerBuilderImpl [110] 2 4096).add_value encodedPropertyValueInt19 = some p1 ∧
        p1.2.add_value encodedPropertyValueDouble19 = some p2 ∧
        (p1.1 = p2.1 ↔ encodedPropertyValueInt19 = encodedPropertyValueDouble19)) ∧
     encodedPropertyValueInt19 ≠ encodedPropertyValueDouble19) :=
  ⟨by decide,
   claim_dedup_keys_values [110] 2 4096 (by decide) [97] [98]
     encodedPropertyValueInt19 encodedPropertyValueDouble19⟩

def lbC8d : LayerBuilderImpl := layerBuilderImpl [116, 100] 3 4096

/-- Bit pattern of the double `-0.0`, for the C8 counterexample. -/
def negZeroC8 : Nat := 2 ^ 63

/-- C8 counterexample: the double table violates "the index returned
for an entry equals the zero-based position of that entry in the
serialized table": after interning `+0.0`, `add_double_value` of `-0.0`
(a different bit pattern) returns index 0, but the entry at position 0
is `+0.0` and `-0.0` occurs at no position of the table. -/
theorem claim_index_is_table_position_counterexample :
    ((lbC8d.add_double_value 0).bind
        (fun p => p.2.add_double_value negZeroC8)).map
      (fun p => (p.1, p.2.m_double_values)) = some (0, [0]) ∧
    negZeroC8 ≠ 0 ∧ negZeroC8 ∉ [(0 : Nat)] := by
  refine ⟨?_, ?_, ?_⟩ <;> decide

/-- C8 (amended): every index an interning table returns is the
zero-based position of a matching entry in the serialized table — equal
bytes for the string tables (for arbitrary interleavings of `add` and
`add_without_dup_check`), equal `uint64` for the int table, and for the
double and float tables an entry matching under the container's IEEE
`==` or the value itself when newly appended (not necessarily
bit-identical: `-0.0` can resolve to a stored `+0.0`); the
`add*_without_dup_check` variants of every table return exactly the
position at which the entry is appended, so indices are assigned
consecutively in call order, and in a dedup-only string-table run the
table holds the distinct texts in order of first appearance and the
n-th distinct text receives index n-1. -/
theorem claim_index_is_table_position :
    (∀ (tag : Nat) (ops : List AddOp),
      ∃ es, parseEntries ((StringTable.fresh tag).runOps ops).2.m_data = some es ∧
        ((StringTable.fresh tag).runOps ops).1.length = ops.length ∧
        ∀ k op i, ops.get? k = some op →
          ((StringTable.fresh tag).runOps ops).1.get? k = some i →
          es.get? i = some op.text) ∧
    (∀ (tag : Nat) (ts : List (List Nat)),
      parseEntries ((StringTable.fresh tag).runAdds ts).2.m_data =
        some (firstsAcc [] ts) ∧
      ∀ k t, ts.get? k = some t →
        ((StringTable.fresh tag).runAdds ts).1.get? k =
          firstIdx t (firstsAcc [] ts)) ∧
    (∀ (lb : LayerBuilderImpl) (v : Nat), lb.m_version = 3 →
      lb.add_int_value_without_dup_check v =
        some (lb.m_int_values.length,
          { lb with m_int_values := lb.m_int_values ++ [v] }) ∧
      (∀ i lb', lb.add_int_value v = some (i, lb') →
        lb'.m_int_values.get? i = some v) ∧
      lb.add_double_value_without_dup_check v =
        some (lb.m_double_values.length,
          { lb with m_double_values := lb.m_double_values ++ [v] }) ∧
      (∀ i lb', lb.add_double_value v = some (i, lb') →
        ∃ a, lb'.m_double_values.get? i = some a ∧
          (doubleEq a v = true ∨ a = v)) ∧
      lb.add_float_value_without_dup_check v =
        some (lb.m_float_values.length,
          { lb with m_float_values := lb.m_float_values ++ [v] }) ∧
      (∀ i lb', lb.add_float_value v = some (i, lb') →
        ∃ a, lb'.m_float_values.get? i = some a ∧
          (floatEq a v = true ∨ a = v))) := by
  refine ⟨?_, ?_, ?_⟩
  · intro tag ops
    obtain ⟨more, hst, hlen, hget⟩ := STSound.runOps_sound_spec (STSound.fresh_sound tag) ops
    refine ⟨[] ++ more, ?_, hlen, hget⟩
    rw [hst.data_eq]
    exact parseEntries_encodeTable _ _
  · intro tag ts
    obtain ⟨h1, h2, h3⟩ := STWF.runAdds_strong_spec (STWF.fresh_strong tag) ts
    constructor
    · rw [h2.data_eq, h3, ← runAddsModel_entries ts []]
      exact parseEntries_encodeTable _ _
    · intro k t hk
      rw [h1, runAddsModel_indices ts [] k t hk, runAddsModel_entries ts []]
  · intro lb v h3
    refine ⟨?_, ?_, ?_, ?_, ?_, ?_⟩
    · unfold LayerBuilderImpl.add_int_value_without_dup_check
      rw [if_pos h3]
    · intro i lb' h
      unfold LayerBuilderImpl.add_int_value at h
      rw [if_pos h3] at h
      cases hf : vecFind (fun x => x == v) lb.m_int_values with
      | some j =>
        rw [hf] at h
        simp only [Option.some.injEq, Prod.mk.injEq] at h
        obtain ⟨hi, hlb⟩ := h
        subst hi
        subst hlb
        obtain ⟨a, ha, hav⟩ := vecFind_get hf
        have : a = v := by simpa using hav
        rw [← this]
        exact ha
      | none =>
        rw [hf] at h
        unfold LayerBuilderImpl.add_int_value_without_dup_check at h
        rw [if_pos h3] at h
        simp only [Option.some.injEq, Prod.mk.injEq] at h
        obtain ⟨hi, hlb⟩ := h
        subst hi
        subst hlb
        show (lb.m_int_values ++ [v]).get? lb.m_int_values.length = some v
        rw [get?_append_len]
        rfl
    · unfold LayerBuilderImpl.add_double_value_without_dup_check
      rw [if_pos h3]
    · intro i lb' h
      unfold LayerBuilderImpl.add_double_value at h
      rw [if_pos h3] at h
      cases hf : vecFind (fun x => doubleEq x v) lb.m_double_values with
      | some j =>
        rw [hf] at h
        simp only [Option.some.injEq, Prod.mk.injEq] at h
        obtain ⟨hi, hlb⟩ := h
        subst hi
        subst hlb
        obtain ⟨a, ha, hav⟩ := vecFind_get hf
        exact ⟨a, ha, Or.inl hav⟩
      | none =>
        rw [hf] at h
        unfold LayerBuilderImpl.add_double_value_without_dup_check at h
        rw [if_pos h3] at h
        simp only [Option.some.injEq, Prod.mk.injEq] at h
        obtain ⟨hi, hlb⟩ := h
        subst hi
        subst hlb
        refine ⟨v, ?_, Or.inr rfl⟩
        show (lb.m_double_values ++ [v]).get? lb.m_double_values.length = some v
        rw [get?_append_len]
        rfl
    · unfold LayerBuilderImpl.add_float_value_without_dup_check
      rw [if_pos h3]
    · intro i lb' h
      unfold LayerBuilderImpl.add_float_value at h
      rw [if_pos h3] at h
      cases hf : vecFind (fun x => floatEq x v) lb.m_float_values with
      | some j =>
        rw [hf] at h
        simp only [Option.some.injEq, Prod.mk.injEq] at h
        obtain ⟨hi, hlb⟩ := h
        subst hi
        subst hlb
        obtain ⟨a, ha, hav⟩ := vecFind_get hf
        exact ⟨a, ha, Or.inl hav⟩
      | none =>
        rw [hf] at h
        unfold LayerBuilderImpl.add_float_value_without_dup_check at h
        rw [if_pos h3] at h
        simp only [Option.some.injEq, Prod.mk.injEq] at h
        obtain ⟨hi, hlb⟩ := h
        subst hi
        subst hlb
        refine ⟨v, ?_, Or.inr rfl⟩
        show (lb.m_float_values ++ [v]).get? lb.m_float_values.length = some v
        rw [get?_append_len]
        rfl

def lbC8v3 : LayerBuilderImpl := layerBuilderImpl [116, 56] 3 4096

theorem claim_index_is_table_position_witness :
    lbC8v3.m_version = 3 ∧
    lbC8v3.add_int_value_without_dup_check 7 =
      some (lbC8v3.m_int_values.length,
        { lbC8v3 with m_int_values := lbC8v3.m_int_values ++ [7] }) ∧
    lbC8v3.add_double_value_without_dup_check 5 =
      some (lbC8v3.m_double_values.length,
        { lbC8v3 with m_double_values := lbC8v3.m_double_values ++ [5] }) := by
  have h3 : lbC8v3.m_version = 3 := by decide
  exact ⟨h3, (claim_index_is_table_position.2.2 lbC8v3 7 h3).1,
    (claim_index_is_table_position.2.2 lbC8v3 5 h3).2.2.1⟩

theorem doubleEq_true_not_nan_left {v v' : Nat} (h : doubleEq v v' = true) :
    doubleIsNaN v = false := by
  by_contra hc
  have hct : doubleIsNaN v = true := by simpa using hc
  simp [doubleEq, hct] at h

theorem floatEq_true_not_nan_left {v v' : Nat} (h : floatEq v v' = true) :
    floatIsNaN v = false := by
  by_contra hc
  have hct : floatIsNaN v = true := by simpa using hc
  simp [floatEq, hct] at h

def lbC9 : LayerBuilderImpl := layerBuilderImpl [116, 57] 3 4096

/-- Bit pattern of the double `-0.0`. -/
def negZero64 : Nat := 2 ^ 63

/-- Bit pattern of a quiet double NaN. -/
def nan64 : Nat := 0x7FF8000000000000

/-- C9 counterexample: the typed-vector dedup does not compare by
bitwise equality.  Adding `+0.0` then `-0.0` (different bit patterns)
returns the existing index 0 and creates no second entry, and adding
the same NaN bit pattern twice returns two distinct indices with two
entries — both contradicting the claim as stated. -/
theorem claim_numeric_bitwise_dedup_counterexample :
    ((lbC9.add_double_value 0).bind
        (fun p => p.2.add_double_value negZero64)).map
      (fun p => (p.1, p.2.m_double_values)) = some (0, [0]) ∧
    negZero64 ≠ 0 ∧
    ((lbC9.add_double_value nan64).bind
        (fun p => p.2.add_double_value nan64)).map
      (fun p => (p.1, p.2.m_double_values)) = some (1, [nan64, nan64]) := by
  refine ⟨?_, ?_, ?_⟩ <;> decide

/-- C9 (amended): numeric dedup on a v3 layer is a linear scan of the
typed vector comparing entries with the container's element equality —
IEEE `==` for doubles and floats, not bitwise equality: two successive
adds of IEEE-equal values (e.g. `+0.0` and `-0.0`, despite distinct bit
patterns) return the same index; a value IEEE-equal to no entry is
appended as a fresh entry at the next index; a NaN is always appended,
even when an identical bit pattern is already present; `uint64` entries
compare exactly. -/
theorem claim_numeric_dedup_ieee :
    ∀ (lb : LayerBuilderImpl) (v v' : Nat), lb.m_version = 3 →
      (∀ i1 lb1 i2 lb2, doubleEq v v' = true →
        lb.add_double_value v = some (i1, lb1) →
        lb1.add_double_value v' = some (i2, lb2) → i2 = i1) ∧
      ((∀ a ∈ lb.m_double_values, doubleEq a v = false) →
        lb.add_double_value v =
          some (lb.m_double_values.length,
            { lb with m_double_values := lb.m_double_values ++ [v] })) ∧
      (doubleIsNaN v = true →
        lb.add_double_value v =
          some (lb.m_double_values.length,
            { lb with m_double_values := lb.m_double_values ++ [v] })) ∧
      (∀ i1 lb1 i2 lb2, floatEq v v' = true →
        lb.add_float_value v = some (i1, lb1) →
        lb1.add_float_value v' = some (i2, lb2) → i2 = i1) ∧
      ((∀ a ∈ lb.m_float_values, floatEq a v = false) →
        lb.add_float_value v =
          some (lb.m_float_values.length,
            { lb with m_float_values := lb.m_float_values ++ [v] })) ∧
      (floatIsNaN v = true →
        lb.add_float_value v =
          some (lb.m_float_values.length,
            { lb with m_float_values := lb.m_float_values ++ [v] })) ∧
      (∀ i1 lb1 i2 lb2, lb.add_int_value v = some (i1, lb1) →
        lb1.add_int_value v = some (i2, lb2) →
        i2 = i1 ∧ lb1.m_int_values.get? i1 = some v) := by
  intro lb v v' h3
  refine ⟨?_, ?_, ?_, ?_, ?_, ?_, ?_⟩
  · intro i1 lb1 i2 lb2 hvv' h1 h2
    unfold LayerBuilderImpl.add_double_value at h1
    rw [if_pos h3] at h1
    cases hf : vecFind (fun x => doubleEq x v) lb.m_double_values with
    | some j =>
      rw [hf] at h1
      simp only [Option.some.injEq, Prod.mk.injEq] at h1
      obtain ⟨hi1, hlb1⟩ := h1
      subst hi1
      subst hlb1
      unfold LayerBuilderImpl.add_double_value at h2
      rw [if_pos h3] at h2
      have hcong : vecFind (fun x => doubleEq x v') lb.m_double_values = some j :=
        (vecFind_congr (fun a => doubleEq_congr hvv' a) lb.m_double_values).symm.trans hf
      rw [hcong] at h2
      simp only [Option.some.injEq, Prod.mk.injEq] at h2
      exact h2.1.symm
    | none =>
      rw [hf] at h1
      unfold LayerBuilderImpl.add_double_value_without_dup_check at h1
      rw [if_pos h3] at h1
      simp only [Option.some.injEq, Prod.mk.injEq] at h1
      obtain ⟨hi1, hlb1⟩ := h1
      subst hi1
      subst hlb1
      unfold LayerBuilderImpl.add_double_value at h2
      have h3' : ({ lb with m_double_values := lb.m_double_values ++ [v] } :
          LayerBuilderImpl).m_version = 3 := h3
      rw [if_pos h3'] at h2
      have hself : doubleEq v v' = true := hvv'
      have hvv : doubleEq v v = true :=
        doubleEq_refl_of_not_nan (doubleEq_true_not_nan_left hvv')
      have hfind2 : vecFind (fun x => doubleEq x v')
          (lb.m_double_values ++ [v]) = some lb.m_double_values.length := by
        rw [← vecFind_congr (fun a => doubleEq_congr hvv' a) (lb.m_double_values ++ [v])]
        rw [vecFind_append_of_none v hf, if_pos hvv]
      rw [hfind2] at h2
      simp only [Option.some.injEq, Prod.mk.injEq] at h2
      exact h2.1.symm
  · intro hnone
    unfold LayerBuilderImpl.add_double_value
    rw [if_pos h3, vecFind_eq_none_iff.mpr hnone]
    unfold LayerBuilderImpl.add_double_value_without_dup_check
    rw [if_pos h3]
  · intro hnan
    unfold LayerBuilderImpl.add_double_value
    rw [if_pos h3, vecFind_eq_none_iff.mpr (fun a _ => doubleEq_of_nan_right hnan)]
    unfold LayerBuilderImpl.add_double_value_without_dup_check
    rw [if_pos h3]
  · intro i1 lb1 i2 lb2 hvv' h1 h2
    unfold LayerBuilderImpl.add_float_value at h1
    rw [if_pos h3] at h1
    cases hf : vecFind (fun x => floatEq x v) lb.m_float_values with
    | some j =>
      rw [hf] at h1
      simp only [Option.some.injEq, Prod.mk.injEq] at h1
      obtain ⟨hi1, hlb1⟩ := h1
      subst hi1
      subst hlb1
      unfold LayerBuilderImpl.add_float_value at h2
      rw [if_pos h3] at h2
      have hcong : vecFind (fun x => floatEq x v') lb.m_float_values = some j :=
        (vecFind_congr (fun a => floatEq_congr hvv' a) lb.m_float_values).symm.trans hf
      rw [hcong] at h2
      simp only [Option.some.injEq, Prod.mk.injEq] at h2
      exact h2.1.symm
    | none =>
      rw [hf] at h1
      unfold LayerBuilderImpl.add_float_value_without_dup_check at h1
      rw [if_pos h3] at h1
      simp only [Option.some.injEq, Prod.mk.injEq] at h1
      obtain ⟨hi1, hlb1⟩ := h1
      subst hi1
      subst hlb1
      unfold LayerBuilderImpl.add_float_value at h2
      have h3' : ({ lb with m_float_values := lb.m_float_values ++ [v] } :
          LayerBuilderImpl).m_version = 3 := h3
      rw [if_pos h3'] at h2
      have hvv : floatEq v v = true :=
        floatEq_refl_of_not_nan (floatEq_true_not_nan_left hvv')
      have hfind2 : vecFind (fun x => floatEq x v')
          (lb.m_float_values ++ [v]) = some lb.m_float_values.length := by
        rw [← vecFind_congr (fun a => floatEq_congr hvv' a) (lb.m_float_values ++ [v])]
        rw [vecFind_append_of_none v hf, if_pos hvv]
      rw [hfind2] at h2
      simp only [Option.some.injEq, Prod.mk.injEq] at h2
      exact h2.1.symm
  · intro hnone
    unfold LayerBuilderImpl.add_float_value
    rw [if_pos h3, vecFind_eq_none_iff.mpr hnone]
    unfold LayerBuilderImpl.add_float_value_without_dup_check
    rw [if_pos h3]
  · intro hnan
    unfold LayerBuilderImpl.add_float_value
    rw [if_pos h3, vecFind_eq_none_iff.mpr (fun a _ => floatEq_of_nan_right hnan)]
    unfold LayerBuilderImpl.add_float_value_without_dup_check
    rw [if_pos h3]
  · intro i1 lb1 i2 lb2 h1 h2
    unfold LayerBuilderImpl.add_int_value at h1
    rw [if_pos h3] at h1
    cases hf : vecFind (fun x => x == v) lb.m_int_values with
    | some j =>
      rw [hf] at h1
      simp only [Option.some.injEq, Prod.mk.injEq] at h1
      obtain ⟨hi1, hlb1⟩ := h1
      subst hi1
      subst hlb1
      unfold LayerBuilderImpl.add_int_value at h2
      rw [if_pos h3, hf] at h2
      simp only [Option.some.injEq, Prod.mk.injEq] at h2
      obtain ⟨a, ha, hav⟩ := vecFind_get hf
      have hv : a = v := by simpa using hav
      exact ⟨h2.1.symm, by rw [← hv]; exact ha⟩
    | none =>
      rw [hf] at h1
      unfold LayerBuilderImpl.add_int_value_without_dup_check at h1
      rw [if_pos h3] at h1
      simp only [Option.some.injEq, Prod.mk.injEq] at h1
      obtain ⟨hi1, hlb1⟩ := h1
      subst hi1
      subst hlb1
      unfold LayerBuilderImpl.add_int_value at h2
      have h3' : ({ lb with m_int_values := lb.m_int_values ++ [v] } :
          LayerBuilderImpl).m_version = 3 := h3
      rw [if_pos h3'] at h2
      have hfind2 : vecFind (fun x => x == v) (lb.m_int_values ++ [v]) =
          some lb.m_int_values.length := by
        rw [vecFind_append_of_none v hf, if_pos (by simp)]
      rw [hfind2] at h2
      simp only [Option.some.injEq, Prod.mk.injEq] at h2
      refine ⟨h2.1.symm, ?_⟩
      show (lb.m_int_values ++ [v]).get? lb.m_int_values.length = some v
      rw [get?_append_len]
      rfl

theorem claim_numeric_dedup_ieee_witness :
    lbC9.m_version = 3 ∧ doubleIsNaN nan64 = true ∧
    lbC9.add_double_value nan64 =
      some (lbC9.m_double_values.length,
        { lbC9 with m_double_values := lbC9.m_double_values ++ [nan64] }) := by
  have h3 : lbC9.m_version = 3 := by decide
  have hnan : doubleIsNaN nan64 = true := by decide
  exact ⟨h3, hnan, (claim_numeric_dedup_ieee lbC9 nan64 nan64 h3).2.2.1 hnan⟩

/-- C10: `string_table::find` is not read-only at or above the
threshold — on a sound table holding at least 20 entries, `find` of an
absent text appends it as a new entry and returns its valid new index
(the old entry count), while on a table below the threshold `find` of
an absent text returns the invalid sentinel and leaves the table state
unchanged. -/
theorem claim_find_effect_threshold :
    ∀ (st : StringTable) (es : List (List Nat)) (t : List Nat),
      STSound st es → t ∉ es →
      (max_entries_flat ≤ st.m_num →
        (st.find t).1 = some st.m_num ∧
        (st.find t).2.m_data = st.m_data ++ encodeStringField st.m_pbf_type t ∧
        (st.find t).2.m_num = st.m_num + 1) ∧
      (st.m_num < max_entries_flat → st.find t = (none, st)) := by
  intro st es t hs hmem
  obtain ⟨hdata, hnum, hsound, hnoinv⟩ := hs
  constructor
  · intro hge
    have hlt : ¬ st.m_num < max_entries_flat := by omega
    set idx := if st.m_index = [] then populate_index st.m_data else st.m_index
      with hidx_def
    have hidx_sound : ∀ j, mapLookup idx t = some (some j) → es.get? j = some t := by
      intro j hj
      rw [hidx_def] at hj
      by_cases hempty : st.m_index = []
      · rw [if_pos hempty, hdata, populate_index_lookup st.m_pbf_type es t] at hj
        cases hl : lastIdx t es with
        | some k =>
          rw [hl] at hj
          simp only [Option.some.injEq] at hj
          rw [← hj]
          exact lastIdx_get hl
        | none =>
          rw [hl] at hj
          cases hj
      · rw [if_neg hempty] at hj
        exact hsound t j hj
    have hidx_noinv : mapLookup idx t ≠ some none := by
      intro hj
      rw [hidx_def] at hj
      by_cases hempty : st.m_index = []
      · rw [if_pos hempty, hdata, populate_index_lookup st.m_pbf_type es t] at hj
        cases hl : lastIdx t es with
        | some k =>
          rw [hl] at hj
          cases hj
        | none =>
          rw [hl] at hj
          cases hj
      · rw [if_neg hempty] at hj
        exact hnoinv t hj
    have hlook : mapLookup idx t = none := by
      cases hl : mapLookup idx t with
      | none => rfl
      | some w =>
        cases w with
        | none => exact absurd hl hidx_noinv
        | some j => exact absurd (mem_of_get? (hidx_sound j hl)) hmem
    have hfind : st.find t =
        (some st.m_num,
         { st with
           m_data := st.m_data ++ encodeStringField st.m_pbf_type t
           m_num := st.m_num + 1
           m_index := mapInsert idx t (some st.m_num) }) := by
      unfold StringTable.find
      rw [if_neg hlt, ← hidx_def]
      simp only [hlook, StringTable.add_without_dup_check]
    rw [hfind]
    exact ⟨rfl, rfl, rfl⟩
  · intro hlt
    unfold StringTable.find
    rw [if_pos hlt, hdata, find_in_table_encodeTable,
      firstIdx_eq_none_iff.mpr hmem]

def tsC10 : List (List Nat) := (List.range 20).map (fun n => [107, n])

def stC10 : StringTable := ((StringTable.fresh 3).runAdds tsC10).2

def esC10 : List (List Nat) := (runAddsModel [] tsC10).2

theorem claim_find_effect_threshold_witness :
    ([107, 99] ∉ esC10) ∧ max_entries_flat ≤ stC10.m_num ∧
    (stC10.find [107, 99]).1 = some stC10.m_num ∧
    (stC10.find [107, 99]).2.m_num = stC10.m_num + 1 := by
  have hwf : STWF stC10 esC10 := (STWF.runAdds_strong_spec (STWF.fresh_strong 3) tsC10).2.1
  have hs : STSound stC10 esC10 := STSound_of_STWF hwf
  have hmem : [107, 99] ∉ esC10 := by decide
  have hge : max_entries_flat ≤ stC10.m_num := by decide
  obtain ⟨ha, hb, hc⟩ :=
    (claim_find_effect_threshold stC10 esC10 [107, 99] hs hmem).1 hge
  exact ⟨hmem, hge, ha, hc⟩

end Vtzero
